import Mathlib

/-!
# A separate-chaining hash table (`src/hashmap.h`)

Shallow embedding of the class template `HashMap<KeyT, ValT>`.

* A chain (`ChainNode*`, a singly linked list ended by `nullptr`) is a
  `List (K × V)`: the head node first, `[]` for `nullptr`.
* The bucket array `data` (`ChainNode**`) is an `Option (List chain)`:
  `none` is `nullptr`, `some d` an allocated array whose slots are `d`.
* `sz`, `capacity` and `curr_idx` are the `size_t` fields.  They are modelled
  by `Nat`: every node and every bucket slot occupies at least eight bytes of
  a 64-bit address space, so `sz + 1`, `2 * (sz + 1)`, `3 * capacity` and
  `capacity * 2` stay far below `2 ^ 64` whenever the table exists in memory.
* `sz--` in `erase` is `sz - 1`: it runs only after a node was found, so
  `sz ≥ 1` whenever `sz` counts the nodes of the table.
* The cursor `curr` (a pointer into a chain) is the suffix of the chain that
  starts at the node it points to, `[]` for `nullptr`.  This is exact between
  a `begin` and the `next` calls that follow it without a mutation in between.
* `std::hash<KeyT>` is the parameter `hash : K → Nat`; `KeyT::operator==` is
  decidable equality on `K`, `ValT::operator==` is a `BEq V`.
* `a % b` in `bucketIndex` and `moveNode` is the remainder on `Nat`, which is
  total (`a % 0 = a`), whereas in C++ a zero divisor is undefined behaviour.
  The definitions named `...Checked` follow the same code with the machine
  `%`, `none` standing for a computed modulo by zero; they are proved to
  return `some` of the total ones on every table.
* `throw out_of_range` is `Except.error Exn.out_of_range`; an operation that
  can throw and also owns the table returns the table next to the result.
-/

/-- The exception thrown by `at` and `erase` (`std::out_of_range`). -/
inductive Exn where
  | out_of_range
  deriving DecidableEq

/-- The fields of `HashMap<KeyT, ValT>`. -/
structure HashMap (K V : Type) where
  data : Option (List (List (K × V)))
  sz : Nat
  capacity : Nat
  curr : List (K × V)
  curr_idx : Nat
  deriving DecidableEq

namespace HashMap

variable {K V : Type}

/-- The read `data[i]`: the chain hanging off bucket `i`. -/
def bucket (m : HashMap K V) (i : Nat) : List (K × V) :=
  match m.data with
  | none => []
  | some d => d.getD i []

/-- The write `data[i] = chain`. -/
def setBucket (m : HashMap K V) (i : Nat) (chain : List (K × V)) : HashMap K V :=
  { m with data := m.data.map (fun d => d.set i chain) }

/-- The fields of an object before its constructor body has run; `data` and
`capacity` are assigned by `initBuckets` before they are read. -/
def blank : HashMap K V :=
  { data := none, sz := 0, capacity := 0, curr := [], curr_idx := 0 }

/-- The helper `initBuckets(cap)`. -/
def initBuckets (m : HashMap K V) (cap : Nat) : HashMap K V :=
  { m with capacity := cap, data := some (List.replicate cap []) }

/-- The helper `freeNodes()`. -/
def freeNodes (m : HashMap K V) : HashMap K V :=
  match m.data with
  | none => m
  | some _ =>
    let m := (List.range m.capacity).foldl (fun m i => setBucket m i []) m
    { m with sz := 0 }

/-- The tail insertion of `rehash`: walk `t->next` to the last node of the
chain and link `node` behind it (an empty chain becomes `[node]`). -/
def appendTail (node : K × V) : List (K × V) → List (K × V)
  | [] => [node]
  | t :: rest => t :: appendTail node rest

/-- One round of the inner loop of `rehash`: move `node` into `newData`. -/
def moveNode (hash : K → Nat) (newCapacity : Nat)
    (newData : List (List (K × V))) (node : K × V) : List (List (K × V)) :=
  let idx := hash node.1 % newCapacity
  newData.set idx (appendTail node (newData.getD idx []))

/-- The helper `rehash(newCapacity)`. -/
def rehash (hash : K → Nat) (m : HashMap K V) (newCapacity : Nat) : HashMap K V :=
  let newCapacity := if newCapacity = 0 then 1 else newCapacity
  let newData : List (List (K × V)) := List.replicate newCapacity []
  let newData := (List.range m.capacity).foldl
    (fun nd i => (m.bucket i).foldl (moveNode hash newCapacity) nd) newData
  { m with data := some newData, capacity := newCapacity }

/-- The helper `bucketIndex(key)`. -/
def bucketIndex (hash : K → Nat) (m : HashMap K V) (key : K) : Nat :=
  hash key % m.capacity

/-- The default constructor `HashMap()`. -/
def new : HashMap K V :=
  initBuckets blank 10

/-- The constructor `HashMap(size_t capacity)`. -/
def newCap (capacity : Nat) : HashMap K V :=
  if capacity = 0 then initBuckets blank 1 else initBuckets blank capacity

/-- The accessor `empty()`. -/
def empty (m : HashMap K V) : Bool :=
  m.sz == 0

/-- The accessor `size()`. -/
def size (m : HashMap K V) : Nat :=
  m.sz

/-- The accessor `get_capacity()`. -/
def get_capacity (m : HashMap K V) : Nat :=
  m.capacity

variable [DecidableEq K]

/-- The search loop shared by `insert` and `contains`: is there a node with
this key on the chain? -/
def chainHas (key : K) : List (K × V) → Bool
  | [] => false
  | node :: next => if node.1 = key then true else chainHas key next

/-- The search loop of `at`: the value of the first node with this key. -/
def chainAt (key : K) : List (K × V) → Option V
  | [] => none
  | node :: next => if node.1 = key then some node.2 else chainAt key next

/-- The loop and the unlinking of `erase`: the value of the first node with
this key and the chain without that node, `none` when the loop ends at
`nullptr`. -/
def chainErase (key : K) : List (K × V) → Option (V × List (K × V))
  | [] => none
  | node :: next =>
    if node.1 = key then some (node.2, next)
    else match chainErase key next with
      | none => none
      | some (v, rest) => some (v, node :: rest)

/-- The resize step at the top of `insert`. -/
def grow (hash : K → Nat) (m : HashMap K V) : HashMap K V :=
  if m.capacity = 0 then rehash hash m 1
  else if 2 * (m.sz + 1) > 3 * m.capacity then rehash hash m (m.capacity * 2)
  else m

/-- The method `insert(key, value)`. -/
def insert (hash : K → Nat) (m : HashMap K V) (key : K) (value : V) : HashMap K V :=
  let m := grow hash m
  let idx := bucketIndex hash m key
  if chainHas key (m.bucket idx) then m
  else { setBucket m idx ((key, value) :: m.bucket idx) with sz := m.sz + 1 }

/-- The method `at(key)`. -/
def at_ (hash : K → Nat) (m : HashMap K V) (key : K) : Except Exn V :=
  if m.capacity = 0 then Except.error Exn.out_of_range
  else match chainAt key (m.bucket (bucketIndex hash m key)) with
    | some v => Except.ok v
    | none => Except.error Exn.out_of_range

/-- The method `contains(key)`. -/
def contains (hash : K → Nat) (m : HashMap K V) (key : K) : Bool :=
  if m.capacity = 0 then false
  else chainHas key (m.bucket (bucketIndex hash m key))

/-- The method `clear()`. -/
def clear (m : HashMap K V) : HashMap K V :=
  { freeNodes m with curr := [], curr_idx := 0 }

/-- The method `erase(key)`: the returned value or the exception, and the
table after the call. -/
def erase (hash : K → Nat) (m : HashMap K V) (key : K) : Except Exn V × HashMap K V :=
  if m.capacity = 0 then (Except.error Exn.out_of_range, m)
  else
    let idx := bucketIndex hash m key
    match chainErase key (m.bucket idx) with
    | none => (Except.error Exn.out_of_range, m)
    | some (removedValue, rest) =>
      (Except.ok removedValue, { setBucket m idx rest with sz := m.sz - 1 })

/-- The inner loop of the two copy routines: a fresh node for every node of
the source chain, linked in the same order, with `sz++` for each. -/
def copyChain : List (K × V) → Nat → List (K × V) × Nat
  | [], sz => ([], sz)
  | otherNode :: next, sz =>
    let r := copyChain next (sz + 1)
    ((otherNode.1, otherNode.2) :: r.1, r.2)

/-- The outer loop of the two copy routines, run on a table whose buckets
were just initialised. -/
def copyBuckets (self other : HashMap K V) : HashMap K V :=
  (List.range other.capacity).foldl
    (fun self i =>
      let r := copyChain (other.bucket i) self.sz
      { setBucket self i r.1 with sz := r.2 })
    self

/-- The copy constructor `HashMap(const HashMap& other)`. -/
def copy (other : HashMap K V) : HashMap K V :=
  if other.capacity = 0 then blank
  else copyBuckets (initBuckets blank other.capacity) other

/-- The copy assignment `operator=`; `same` is the outcome of the test
`this == &other`. -/
def operator_assign (same : Bool) (self other : HashMap K V) : HashMap K V :=
  if same then self
  else
    let self := freeNodes self
    let self : HashMap K V :=
      { self with data := none, capacity := 0, sz := 0, curr := [], curr_idx := 0 }
    if other.capacity = 0 then self
    else copyBuckets (initBuckets self other.capacity) other

/-- The body of the node loop of `operator==` for one node of `this`. -/
def nodeMatches [BEq V] (hash : K → Nat) (other : HashMap K V) (node : K × V) : Bool :=
  if !contains hash other node.1 then false
  else match at_ hash other node.1 with
    | Except.ok otherVal => otherVal == node.2
    | Except.error _ => false

/-- The comparison `operator==`; `same` is the outcome of the test
`this == &other`. -/
def operator_eq [BEq V] (hash : K → Nat) (same : Bool) (self other : HashMap K V) : Bool :=
  if same then true
  else if self.sz ≠ other.sz then false
  else (List.range self.capacity).all
    (fun i => (self.bucket i).all (nodeMatches hash other))

/-- The loop `while (curr_idx < capacity && data[curr_idx] == nullptr)
curr_idx++`, started at `idx`; it makes at most `capacity - idx` rounds, which
is the `fuel` it is called with. -/
def skipEmpty (m : HashMap K V) : Nat → Nat → Nat
  | 0, idx => idx
  | fuel + 1, idx =>
    if idx < m.capacity && (m.bucket idx).isEmpty then skipEmpty m fuel (idx + 1)
    else idx

/-- The common end of `begin` and `next`: skip the empty buckets from
`curr_idx` on and point `curr` at the head of the bucket reached. -/
def settle (m : HashMap K V) : HashMap K V :=
  let idx := skipEmpty m (m.capacity - m.curr_idx) m.curr_idx
  if idx < m.capacity then { m with curr_idx := idx, curr := m.bucket idx }
  else { m with curr_idx := idx, curr := [] }

/-- The method `begin()`. -/
def begin (m : HashMap K V) : HashMap K V :=
  let m := { m with curr := [], curr_idx := 0 }
  if m.capacity = 0 then m else settle m

/-- The method `next(key, value)`: `some (key, value)` when it returns `true`
with the outputs set, `none` when it returns `false`; and the table after. -/
def next (m : HashMap K V) : Option (K × V) × HashMap K V :=
  match m.curr with
  | [] => (none, m)
  | node :: rest =>
    if !rest.isEmpty then (some node, { m with curr := rest })
    else (some node, settle { m with curr_idx := m.curr_idx + 1 })

/-- One call of the public interface on a table. -/
inductive Call (K V : Type) where
  | insert (key : K) (value : V)
  | at_ (key : K)
  | contains (key : K)
  | erase (key : K)
  | clear
  | size
  | empty
  | get_capacity
  | begin
  | next
  | equals (other : HashMap K V)
  | assign (other : HashMap K V)

/-- What a call of the public interface hands back to the caller. -/
inductive Ret (K V : Type) where
  | unit
  | bool (b : Bool)
  | nat (n : Nat)
  | value (r : Except Exn V)
  | pair (r : Option (K × V))

/-- Run one call: what it returns and the table after it.  The `const`
methods hand the table back as it was; `equals` and `assign` take another
object (`this != &other`). -/
def call [BEq V] (hash : K → Nat) (m : HashMap K V) : Call K V → Ret K V × HashMap K V
  | Call.insert key value => (Ret.unit, insert hash m key value)
  | Call.at_ key => (Ret.value (at_ hash m key), m)
  | Call.contains key => (Ret.bool (contains hash m key), m)
  | Call.erase key => (Ret.value (erase hash m key).1, (erase hash m key).2)
  | Call.clear => (Ret.unit, clear m)
  | Call.size => (Ret.nat (size m), m)
  | Call.empty => (Ret.bool (empty m), m)
  | Call.get_capacity => (Ret.nat (get_capacity m), m)
  | Call.begin => (Ret.unit, begin m)
  | Call.next => (Ret.pair (next m).1, (next m).2)
  | Call.equals other => (Ret.bool (operator_eq hash false m other), m)
  | Call.assign other => (Ret.unit, operator_assign false m other)

/-- Run a sequence of calls, first to last: the results in order and the
final table. -/
def run [BEq V] (hash : K → Nat) (m : HashMap K V) : List (Call K V) → List (Ret K V) × HashMap K V
  | [] => ([], m)
  | c :: cs =>
    let r := call hash m c
    let rs := run hash r.2 cs
    (r.1 :: rs.1, rs.2)

/-- A sequence of `insert` calls, first to last. -/
def insertAll (hash : K → Nat) (m : HashMap K V) : List (K × V) → HashMap K V
  | [] => m
  | kv :: rest => insertAll hash (insert hash m kv.1 kv.2) rest

/-- The results of `n` consecutive calls of `next`, and the table after. -/
def nextTimes (m : HashMap K V) : Nat → List (Option (K × V)) × HashMap K V
  | 0 => ([], m)
  | n + 1 =>
    let r := next m
    let rs := nextTimes r.2 n
    (r.1 :: rs.1, rs.2)

/-- The chains of the table in bucket order, as the loops
`for (i = 0; i < capacity; i++)` meet them. -/
def buckets (m : HashMap K V) : List (List (K × V)) :=
  (List.range m.capacity).map m.bucket

/-- Every entry reachable from the bucket array: bucket order, then chain
order. -/
def entries (m : HashMap K V) : List (K × V) :=
  (buckets m).flatten

/-- The storage invariant of the class: `data` is `nullptr` only at capacity
0, and otherwise points to an array of exactly `capacity` slots. -/
def Allocated (m : HashMap K V) : Prop :=
  match m.data with
  | none => m.capacity = 0
  | some d => d.length = m.capacity

/-- Well-formedness: the storage invariant, every key in at most one entry of
the whole table, every entry in the bucket `hash key % capacity`, and `sz` the
number of entries. -/
def WF (hash : K → Nat) (m : HashMap K V) : Prop :=
  Allocated m ∧
  ((entries m).map Prod.fst).Nodup ∧
  (∀ i < m.capacity, ∀ e ∈ m.bucket i, hash e.1 % m.capacity = i) ∧
  m.sz = (entries m).length

instance decidableAllocated (m : HashMap K V) : Decidable (Allocated m) :=
  match h : m.data with
  | none => decidable_of_iff (m.capacity = 0) (by unfold Allocated; rw [h])
  | some d => decidable_of_iff (d.length = m.capacity) (by unfold Allocated; rw [h])

instance decidableWF (hash : K → Nat) (m : HashMap K V) : Decidable (WF hash m) :=
  inferInstanceAs (Decidable (_ ∧ _ ∧ _ ∧ _))

/-- The keys of the entries of the table, in bucket order then chain order. -/
def keys (m : HashMap K V) : List K :=
  (entries m).map Prod.fst

/-- A default table after the fifteen inserts `i ↦ i`, `i = 0..14`, with
`std::hash<int>` the identity: capacity 10, one more insert doubles it. -/
def sampleFull : HashMap Nat Nat :=
  insertAll (fun n => n) new ((List.range 15).map (fun i => (i, i)))

/-- The table built by `HashMap(1)` and the inserts `1 ↦ 100`, `2 ↦ 200`,
`3 ↦ 300`, with `std::hash<int>` the identity: the second insert doubles the
capacity to 2, so `2` is alone in bucket 0 and bucket 1 holds `3`, then `1`. -/
def sampleChain : HashMap Nat Nat :=
  insertAll (fun n => n) (newCap 1) [(1, 100), (2, 200), (3, 300)]

/-- The table built by `HashMap(5)` and the inserts `1 ↦ 100`, `2 ↦ 200`,
`3 ↦ 300` under a hash that sends every key to 0: one chain in bucket 0, `3`
at its head, `2` inside it, `1` at its tail. -/
def sampleColliding : HashMap Nat Nat :=
  insertAll (fun _ => 0) (newCap 5) [(1, 100), (2, 200), (3, 300)]

/-- The entries a scan has yet to deliver: the rest of the current chain, then
the chains of the buckets behind `curr_idx`. -/
def pending (m : HashMap K V) : List (K × V) :=
  m.curr ++ ((buckets m).drop (m.curr_idx + 1)).flatten

/-- A default table holding the mappings of `sampleChain`, inserted in another
order: capacity 10, one entry in each of the buckets 1, 2 and 3. -/
def sampleSpread : HashMap Nat Nat :=
  insertAll (fun n => n) new [(3, 300), (1, 100), (2, 200)]

/-- The tables a program can build: those made by a constructor, and those
obtained from such tables by the public methods.  Copy assignment is listed
for two distinct objects; assigning a table to itself returns it as it is. -/
inductive Reachable [DecidableEq K] (hash : K → Nat) : HashMap K V → Prop where
  | byNew : Reachable hash new
  | byNewCap (capacity : Nat) : Reachable hash (newCap capacity)
  | byInsert {m : HashMap K V} (key : K) (value : V) :
      Reachable hash m → Reachable hash (insert hash m key value)
  | byErase {m : HashMap K V} (key : K) :
      Reachable hash m → Reachable hash (erase hash m key).2
  | byClear {m : HashMap K V} : Reachable hash m → Reachable hash (clear m)
  | byCopy {m : HashMap K V} : Reachable hash m → Reachable hash (copy m)
  | byAssign {dst src : HashMap K V} :
      Reachable hash dst → Reachable hash src → Reachable hash (operator_assign false dst src)
  | byBegin {m : HashMap K V} : Reachable hash m → Reachable hash (begin m)
  | byNext {m : HashMap K V} : Reachable hash m → Reachable hash (next m).2

/-- The machine operation `a % b` on `size_t`.  With `b = 0` the behaviour of
the C++ program is undefined: `none`. -/
def modChecked (a b : Nat) : Option Nat :=
  if b = 0 then none else some (a % b)

/-- The helper `bucketIndex(key)` with the machine `%`. -/
def bucketIndexChecked (hash : K → Nat) (m : HashMap K V) (key : K) : Option Nat :=
  modChecked (hash key) m.capacity

/-- One round of the inner loop of `rehash` with the machine `%`. -/
def moveNodeChecked (hash : K → Nat) (newCapacity : Nat)
    (newData : List (List (K × V))) (node : K × V) : Option (List (List (K × V))) :=
  (modChecked (hash node.1) newCapacity).map
    (fun idx => newData.set idx (appendTail node (newData.getD idx [])))

/-- The helper `rehash(newCapacity)` with the machine `%`: `none` when some
round of the loops computes a modulo by zero. -/
def rehashChecked (hash : K → Nat) (m : HashMap K V) (newCapacity : Nat) :
    Option (HashMap K V) :=
  let newCapacity := if newCapacity = 0 then 1 else newCapacity
  let newData : List (List (K × V)) := List.replicate newCapacity []
  ((List.range m.capacity).foldlM
    (fun nd i => (m.bucket i).foldlM (moveNodeChecked hash newCapacity) nd) newData).map
    (fun newData => { m with data := some newData, capacity := newCapacity })

/-- The resize step at the top of `insert` with the machine `%`. -/
def growChecked (hash : K → Nat) (m : HashMap K V) : Option (HashMap K V) :=
  if m.capacity = 0 then rehashChecked hash m 1
  else if 2 * (m.sz + 1) > 3 * m.capacity then rehashChecked hash m (m.capacity * 2)
  else some m

/-- The method `insert(key, value)` with the machine `%`: `none` when the
call computes a modulo by zero. -/
def insertChecked [DecidableEq K] (hash : K → Nat) (m : HashMap K V) (key : K) (value : V) :
    Option (HashMap K V) :=
  (growChecked hash m).bind (fun m =>
    (bucketIndexChecked hash m key).map (fun idx =>
      if chainHas key (m.bucket idx) then m
      else { setBucket m idx ((key, value) :: m.bucket idx) with sz := m.sz + 1 }))

/-- The method `at(key)` with the machine `%`: `none` when the call computes
a modulo by zero. -/
def atChecked [DecidableEq K] (hash : K → Nat) (m : HashMap K V) (key : K) :
    Option (Except Exn V) :=
  if m.capacity = 0 then some (Except.error Exn.out_of_range)
  else (bucketIndexChecked hash m key).map (fun idx =>
    match chainAt key (m.bucket idx) with
    | some v => Except.ok v
    | none => Except.error Exn.out_of_range)

/-- The method `contains(key)` with the machine `%`: `none` when the call
computes a modulo by zero. -/
def containsChecked [DecidableEq K] (hash : K → Nat) (m : HashMap K V) (key : K) :
    Option Bool :=
  if m.capacity = 0 then some false
  else (bucketIndexChecked hash m key).map (fun idx => chainHas key (m.bucket idx))

/-- The method `erase(key)` with the machine `%`: `none` when the call
computes a modulo by zero. -/
def eraseChecked [DecidableEq K] (hash : K → Nat) (m : HashMap K V) (key : K) :
    Option (Except Exn V × HashMap K V) :=
  if m.capacity = 0 then some (Except.error Exn.out_of_range, m)
  else (bucketIndexChecked hash m key).map (fun idx =>
    match chainErase key (m.bucket idx) with
    | none => (Except.error Exn.out_of_range, m)
    | some (removedValue, rest) =>
      (Except.ok removedValue, { setBucket m idx rest with sz := m.sz - 1 }))

/-- A value type whose `operator==` is not reflexive, as `double` is: a
number, or NaN. -/
inductive Dbl where
  | num (n : Nat)
  | nan

/-- The `operator==` of `Dbl`: equality of numbers, and false as soon as one
side is NaN. -/
def Dbl.beq : Dbl → Dbl → Bool
  | Dbl.num a, Dbl.num b => a == b
  | _, _ => false

instance instBEqDbl : BEq Dbl :=
  ⟨Dbl.beq⟩

/-- A default table holding the one mapping `1 ↦ NaN`. -/
def sampleNaN : HashMap Nat Dbl :=
  insert (fun n => n) new 1 Dbl.nan

end HashMap

namespace HashMap

variable {K V : Type}

/-! ## Storage -/

theorem range_map_getD (d : List (List (K × V))) :
    (List.range d.length).map (fun i => d.getD i []) = d := by
  apply List.ext_getElem
  · simp
  · intro i h1 h2
    simp [List.getElem?_eq_getElem h2]

theorem buckets_of_some {m : HashMap K V} {d : List (List (K × V))}
    (hd : m.data = some d) (hlen : d.length = m.capacity) : buckets m = d := by
  unfold buckets
  have hb : m.bucket = fun i => d.getD i [] := by
    funext i
    simp [bucket, hd]
  rw [hb, ← hlen]
  exact range_map_getD d

theorem mem_entries_iff (m : HashMap K V) (e : K × V) :
    e ∈ entries m ↔ ∃ i, i < m.capacity ∧ e ∈ m.bucket i := by
  simp only [entries, buckets, List.mem_flatten, List.mem_map, List.mem_range]
  constructor
  · rintro ⟨c, ⟨i, hi, rfl⟩, he⟩
    exact ⟨i, hi, he⟩
  · rintro ⟨i, hi, he⟩
    exact ⟨_, ⟨i, hi, rfl⟩, he⟩

theorem allocated_cases {m : HashMap K V} (h : Allocated m) (hc : m.capacity ≠ 0) :
    ∃ d, m.data = some d ∧ d.length = m.capacity := by
  unfold Allocated at h
  cases hd : m.data with
  | none => rw [hd] at h; exact absurd h hc
  | some d => rw [hd] at h; exact ⟨d, rfl, h⟩

/-! ## Chains -/

theorem keys_unique {l : List (K × V)} (hn : (l.map Prod.fst).Nodup) {k : K} {v w : V}
    (hv : (k, v) ∈ l) (hw : (k, w) ∈ l) : v = w := by
  induction l with
  | nil => simp at hv
  | cons x xs ih =>
    rw [List.map_cons, List.nodup_cons] at hn
    rcases List.mem_cons.1 hv with h1 | h1 <;> rcases List.mem_cons.1 hw with h2 | h2
    · rw [← h2] at h1
      exact (Prod.mk.inj h1).2
    · exfalso
      apply hn.1
      subst h1
      exact List.mem_map.2 ⟨(k, w), h2, rfl⟩
    · exfalso
      apply hn.1
      subst h2
      exact List.mem_map.2 ⟨(k, v), h1, rfl⟩
    · exact ih hn.2 h1 h2

section Chains

variable [DecidableEq K]

theorem chainHas_iff (key : K) (c : List (K × V)) :
    chainHas key c = true ↔ ∃ v, (key, v) ∈ c := by
  induction c with
  | nil => simp [chainHas]
  | cons node next ih =>
    obtain ⟨k, w⟩ := node
    by_cases hk : k = key
    · subst hk
      simp only [chainHas, if_true, true_iff]
      exact ⟨w, List.mem_cons_self _ _⟩
    · simp only [chainHas, if_neg hk, ih, List.mem_cons, Prod.mk.injEq]
      constructor
      · rintro ⟨v, hv⟩
        exact ⟨v, Or.inr hv⟩
      · rintro ⟨v, hv | hv⟩
        · exact absurd hv.1.symm hk
        · exact ⟨v, hv⟩

theorem chainAt_mem {key : K} {c : List (K × V)} {v : V}
    (h : chainAt key c = some v) : (key, v) ∈ c := by
  induction c with
  | nil => simp [chainAt] at h
  | cons node next ih =>
    obtain ⟨k, w⟩ := node
    by_cases hk : k = key
    · subst hk
      simp only [chainAt, if_true, Option.some.injEq] at h
      subst h
      exact List.mem_cons_self _ _
    · simp only [chainAt, if_neg hk] at h
      exact List.mem_cons_of_mem _ (ih h)

theorem chainAt_none_iff (key : K) (c : List (K × V)) :
    chainAt key c = none ↔ chainHas key c = false := by
  induction c with
  | nil => simp [chainAt, chainHas]
  | cons node next ih =>
    by_cases hk : node.1 = key
    · simp [chainAt, chainHas, hk]
    · simp [chainAt, chainHas, hk, ih]

theorem chainErase_none_iff (key : K) (c : List (K × V)) :
    chainErase key c = none ↔ chainHas key c = false := by
  induction c with
  | nil => simp [chainErase, chainHas]
  | cons node next ih =>
    by_cases hk : node.1 = key
    · simp [chainErase, chainHas, hk]
    · simp only [chainErase, chainHas, if_neg hk, ← ih]
      cases chainErase key next with
      | none => simp
      | some p => simp

theorem chainErase_some {key : K} {c : List (K × V)} {v : V} {rest : List (K × V)}
    (h : chainErase key c = some (v, rest)) :
    chainAt key c = some v ∧ c.Perm ((key, v) :: rest) := by
  induction c generalizing rest with
  | nil => simp [chainErase] at h
  | cons node next ih =>
    obtain ⟨k, w⟩ := node
    by_cases hk : k = key
    · subst hk
      simp only [chainErase, if_true, Option.some.injEq, Prod.mk.injEq] at h
      obtain ⟨h1, h2⟩ := h
      subst h1 h2
      simp [chainAt]
    · simp only [chainErase, if_neg hk] at h
      cases hr : chainErase key next with
      | none => rw [hr] at h; simp at h
      | some p =>
        obtain ⟨v1, rest1⟩ := p
        rw [hr] at h
        simp only [Option.some.injEq, Prod.mk.injEq] at h
        obtain ⟨h1, h2⟩ := h
        subst h1 h2
        obtain ⟨ha, hp⟩ := ih hr
        refine ⟨by simp [chainAt, hk, ha], ?_⟩
        exact (List.Perm.cons _ hp).trans (List.Perm.swap _ _ _)

end Chains

/-! ## Writing one bucket -/

theorem flatten_set_split {α : Type} (d : List (List α)) (i : Nat) (hi : i < d.length) :
    ∃ A B, d.flatten = A ++ d.getD i [] ++ B ∧
      ∀ c, (d.set i c).flatten = A ++ c ++ B := by
  induction d generalizing i with
  | nil => simp at hi
  | cons x xs ih =>
    cases i with
    | zero => exact ⟨[], xs.flatten, by simp, by simp⟩
    | succ n =>
      obtain ⟨A, B, h1, h2⟩ := ih n (by simpa using hi)
      refine ⟨x ++ A, B, ?_, ?_⟩
      · simp only [List.flatten_cons, h1, List.getD_cons_succ, List.append_assoc]
      · intro c
        simp only [List.set_cons_succ, List.flatten_cons, h2 c, List.append_assoc]

theorem bucket_of_some {m : HashMap K V} {d : List (List (K × V))} (hd : m.data = some d)
    (i : Nat) : m.bucket i = d.getD i [] := by
  simp [bucket, hd]

theorem bucket_set {m : HashMap K V} {d : List (List (K × V))} (hd : m.data = some d)
    (i : Nat) (hi : i < d.length) (c : List (K × V)) (s : Nat) (j : Nat) :
    bucket { setBucket m i c with sz := s } j = if j = i then c else m.bucket j := by
  simp only [bucket, setBucket, hd, Option.map_some']
  by_cases hj : j = i
  · subst hj
    simp [hi]
  · simp [hj, List.getElem?_set, Ne.symm hj]

theorem entries_set {m : HashMap K V} (ha : Allocated m) (i : Nat) (hi : i < m.capacity) :
    ∃ A B, entries m = A ++ m.bucket i ++ B ∧
      ∀ c s, entries { setBucket m i c with sz := s } = A ++ c ++ B := by
  obtain ⟨d, hd, hlen⟩ := allocated_cases ha (by omega)
  obtain ⟨A, B, h1, h2⟩ := flatten_set_split d i (by omega)
  refine ⟨A, B, ?_, ?_⟩
  · rw [entries, buckets_of_some hd hlen, bucket_of_some hd, h1]
  · intro c s
    have hd2 : ({ setBucket m i c with sz := s } : HashMap K V).data = some (d.set i c) := by
      simp [setBucket, hd]
    rw [entries, buckets_of_some hd2 (by simpa [setBucket] using hlen), h2 c]

theorem allocated_set {m : HashMap K V} (ha : Allocated m) (i : Nat) (c : List (K × V))
    (s : Nat) : Allocated ({ setBucket m i c with sz := s } : HashMap K V) := by
  unfold Allocated at ha ⊢
  cases hd : m.data with
  | none => simpa [setBucket, hd] using ha
  | some d => simpa [setBucket, hd] using ha

/-! ## Lookups in a well-formed table -/

section Lookups

variable [DecidableEq K] (hash : K → Nat)

theorem contains_iff {m : HashMap K V} (h : WF hash m) (k : K) :
    contains hash m k = true ↔ ∃ v, (k, v) ∈ entries m := by
  unfold contains
  by_cases hc : m.capacity = 0
  · simp only [hc, if_true, Bool.false_eq_true, false_iff]
    rintro ⟨v, hv⟩
    obtain ⟨i, hi, -⟩ := (mem_entries_iff m _).1 hv
    omega
  · have hlt : hash k % m.capacity < m.capacity := Nat.mod_lt _ (by omega)
    simp only [hc, if_false, chainHas_iff, bucketIndex]
    constructor
    · rintro ⟨v, hv⟩
      exact ⟨v, (mem_entries_iff m _).2 ⟨_, hlt, hv⟩⟩
    · rintro ⟨v, hv⟩
      obtain ⟨i, hi, he⟩ := (mem_entries_iff m _).1 hv
      have := h.2.2.1 i hi _ he
      simp only at this
      rw [this]
      exact ⟨v, he⟩

theorem at_error_iff (m : HashMap K V) (k : K) :
    at_ hash m k = Except.error Exn.out_of_range ↔ contains hash m k = false := by
  unfold at_ contains
  by_cases hc : m.capacity = 0
  · simp [hc]
  · simp only [hc, if_false, ← chainAt_none_iff]
    cases chainAt k (m.bucket (bucketIndex hash m k)) with
    | none => simp
    | some v => simp

theorem at_ok_iff {m : HashMap K V} (h : WF hash m) (k : K) (v : V) :
    at_ hash m k = Except.ok v ↔ (k, v) ∈ entries m := by
  constructor
  · intro hat
    unfold at_ at hat
    by_cases hc : m.capacity = 0
    · simp [hc] at hat
    · simp only [hc, if_false] at hat
      cases hr : chainAt k (m.bucket (bucketIndex hash m k)) with
      | none => rw [hr] at hat; simp at hat
      | some w =>
        rw [hr] at hat
        simp only [Except.ok.injEq] at hat
        subst hat
        exact (mem_entries_iff m _).2 ⟨_, Nat.mod_lt _ (by omega), chainAt_mem hr⟩
  · intro hmem
    have hcon : contains hash m k = true := (contains_iff hash h k).2 ⟨v, hmem⟩
    cases hr : at_ hash m k with
    | error e =>
      cases e
      rw [(at_error_iff hash m k).1 hr] at hcon
      simp at hcon
    | ok w =>
      have hw : (k, w) ∈ entries m := by
        unfold at_ at hr
        by_cases hc : m.capacity = 0
        · simp [hc] at hr
        · simp only [hc, if_false] at hr
          cases hq : chainAt k (m.bucket (bucketIndex hash m k)) with
          | none => rw [hq] at hr; simp at hr
          | some u =>
            rw [hq] at hr
            simp only [Except.ok.injEq] at hr
            subst hr
            exact (mem_entries_iff m _).2 ⟨_, Nat.mod_lt _ (by omega), chainAt_mem hq⟩
      rw [keys_unique h.2.1 hw hmem]

theorem lookup_congr {m m2 : HashMap K V} (h : WF hash m) (h2 : WF hash m2) (k : K)
    (hk : ∀ v, (k, v) ∈ entries m ↔ (k, v) ∈ entries m2) :
    contains hash m k = contains hash m2 k ∧ at_ hash m k = at_ hash m2 k := by
  have hc : contains hash m k = contains hash m2 k := by
    rw [Bool.eq_iff_iff, contains_iff hash h, contains_iff hash h2]
    exact exists_congr hk
  refine ⟨hc, ?_⟩
  cases hr : at_ hash m k with
  | error e =>
    cases e
    have := (at_error_iff hash m k).1 hr
    rw [hc] at this
    exact ((at_error_iff hash m2 k).2 this).symm
  | ok w =>
    exact (((at_ok_iff hash h2 k w).2 ((hk w).1 ((at_ok_iff hash h k w).1 hr)))).symm

end Lookups

/-! ## Rehash -/

theorem appendTail_eq (node : K × V) (c : List (K × V)) : appendTail node c = c ++ [node] := by
  induction c with
  | nil => rfl
  | cons t rest ih => simp [appendTail, ih]

theorem moveNode_length (hash : K → Nat) (n : Nat) (nd : List (List (K × V))) (e : K × V) :
    (moveNode hash n nd e).length = nd.length := by
  simp [moveNode]

theorem moveNode_getD (hash : K → Nat) (n : Nat) (nd : List (List (K × V))) (e : K × V)
    (hn : 0 < n) (hlen : nd.length = n) (j : Nat) :
    (moveNode hash n nd e).getD j [] =
      nd.getD j [] ++ (if hash e.1 % n = j then [e] else []) := by
  have hlt : hash e.1 % n < nd.length := by rw [hlen]; exact Nat.mod_lt _ hn
  by_cases hj : hash e.1 % n = j
  · subst hj
    simp [moveNode, appendTail_eq, hlt]
  · simp [moveNode, hj, List.getElem?_set]

theorem foldl_moveNode (hash : K → Nat) (n : Nat) (hn : 0 < n) (es : List (K × V))
    (nd : List (List (K × V))) (hlen : nd.length = n) :
    (es.foldl (moveNode hash n) nd).length = n ∧
    ∀ j, (es.foldl (moveNode hash n) nd).getD j [] =
      nd.getD j [] ++ es.filter (fun e => hash e.1 % n = j) := by
  induction es generalizing nd with
  | nil => simp [hlen]
  | cons e es ih =>
    have hl : (moveNode hash n nd e).length = n := by rw [moveNode_length, hlen]
    obtain ⟨h1, h2⟩ := ih (moveNode hash n nd e) hl
    refine ⟨by simpa using h1, ?_⟩
    intro j
    rw [List.foldl_cons, h2 j, moveNode_getD hash n nd e hn hlen j]
    by_cases hj : hash e.1 % n = j
    · simp [hj, List.filter_cons]
    · simp [hj, List.filter_cons]

theorem rehash_loop_eq (hash : K → Nat) (n : Nat) (m : HashMap K V)
    (nd : List (List (K × V))) :
    (List.range m.capacity).foldl (fun nd i => (m.bucket i).foldl (moveNode hash n) nd) nd =
      (entries m).foldl (moveNode hash n) nd := by
  rw [entries, buckets, List.foldl_flatten, List.foldl_map]

theorem rehash_capacity (hash : K → Nat) (m : HashMap K V) (n : Nat) :
    (rehash hash m n).capacity = if n = 0 then 1 else n := rfl

theorem rehash_sz (hash : K → Nat) (m : HashMap K V) (n : Nat) :
    (rehash hash m n).sz = m.sz := rfl

theorem rehash_capacity_pos (hash : K → Nat) (m : HashMap K V) (n : Nat) :
    0 < (rehash hash m n).capacity := by
  rw [rehash_capacity]
  split <;> omega

theorem rehash_data (hash : K → Nat) (m : HashMap K V) (n : Nat) :
    (rehash hash m n).data = some ((entries m).foldl (moveNode hash (if n = 0 then 1 else n))
      (List.replicate (if n = 0 then 1 else n) [])) := by
  simp only [rehash, rehash_loop_eq]

theorem rehash_allocated (hash : K → Nat) (m : HashMap K V) (n : Nat) :
    Allocated (rehash hash m n) := by
  have hpos : 0 < (if n = 0 then 1 else n) := by split <;> omega
  have := (foldl_moveNode hash _ hpos (entries m)
    (List.replicate (if n = 0 then 1 else n) []) (by simp)).1
  simp only [Allocated, rehash, rehash_loop_eq]
  exact this

theorem rehash_bucket (hash : K → Nat) (m : HashMap K V) (n : Nat) (j : Nat) :
    (rehash hash m n).bucket j =
      (entries m).filter (fun e => hash e.1 % (rehash hash m n).capacity = j) := by
  have hpos : 0 < (if n = 0 then 1 else n) := by split <;> omega
  have := (foldl_moveNode hash _ hpos (entries m)
    (List.replicate (if n = 0 then 1 else n) []) (by simp)).2 j
  rw [bucket_of_some (rehash_data hash m n), this, rehash_capacity]
  simp

theorem perm_flatten_filter {α : Type} (f : α → Nat) (n : Nat) (l : List α)
    (hf : ∀ x ∈ l, f x < n) :
    ((List.range n).map (fun j => l.filter (fun x => f x = j))).flatten.Perm l := by
  induction n generalizing l with
  | zero =>
    cases l with
    | nil => simp
    | cons x xs => exact absurd (hf x (List.mem_cons_self _ _)) (by omega)
  | succ n ih =>
    rw [List.range_succ, List.map_append, List.flatten_append]
    have hcongr : (List.range n).map (fun j => l.filter (fun x => f x = j)) =
        (List.range n).map
          (fun j => (l.filter (fun x => !decide (f x = n))).filter (fun x => f x = j)) := by
      apply List.map_congr_left
      intro j hj
      rw [List.filter_filter]
      apply List.filter_congr
      intro x _
      have hjn : j < n := List.mem_range.1 hj
      by_cases hx : f x = j
      · have : f x ≠ n := by omega
        simp [hx, this]
        omega
      · simp [hx]
    rw [hcongr]
    have h1 := ih (l.filter (fun x => !decide (f x = n))) (by
      intro x hx
      rw [List.mem_filter] at hx
      have := hf x hx.1
      have hne : f x ≠ n := by simpa using hx.2
      omega)
    have h2 : (l.filter (fun x => !decide (f x = n)) ++ l.filter (fun x => decide (f x = n))).Perm l :=
      List.perm_append_comm.trans (List.filter_append_perm (fun x => decide (f x = n)) l)
    refine List.Perm.trans ?_ h2
    simpa using h1.append_right _

theorem rehash_entries_perm (hash : K → Nat) (m : HashMap K V) (n : Nat) :
    (entries (rehash hash m n)).Perm (entries m) := by
  have hpos := rehash_capacity_pos hash m n
  have hb : buckets (rehash hash m n) = (List.range (rehash hash m n).capacity).map
      (fun j => (entries m).filter (fun e => hash e.1 % (rehash hash m n).capacity = j)) := by
    unfold buckets
    apply List.map_congr_left
    intro j _
    exact rehash_bucket hash m n j
  rw [entries, hb]
  exact perm_flatten_filter (fun e : K × V => hash e.1 % (rehash hash m n).capacity) _ _
    (fun x _ => Nat.mod_lt _ hpos)

theorem rehash_wf (hash : K → Nat) {m : HashMap K V} (h : WF hash m) (n : Nat) :
    WF hash (rehash hash m n) := by
  have hp := rehash_entries_perm hash m n
  refine ⟨rehash_allocated hash m n, ?_, ?_, ?_⟩
  · exact (hp.map Prod.fst).nodup_iff.2 h.2.1
  · intro i _ e he
    rw [rehash_bucket, List.mem_filter] at he
    simpa using he.2
  · rw [rehash_sz, hp.length_eq]
    exact h.2.2.2

/-! ## Insert and erase on a well-formed table -/

theorem grow_capacity_pos (hash : K → Nat) (m : HashMap K V) : 0 < (grow hash m).capacity := by
  unfold grow
  split
  · exact rehash_capacity_pos hash m 1
  · split
    · exact rehash_capacity_pos hash m _
    · omega

theorem grow_sz (hash : K → Nat) (m : HashMap K V) : (grow hash m).sz = m.sz := by
  unfold grow
  split
  · rfl
  · split <;> rfl

theorem grow_entries_perm (hash : K → Nat) (m : HashMap K V) : (entries (grow hash m)).Perm (entries m) := by
  unfold grow
  split
  · exact rehash_entries_perm hash m 1
  · split
    · exact rehash_entries_perm hash m _
    · exact List.Perm.refl _

theorem grow_wf (hash : K → Nat) {m : HashMap K V} (h : WF hash m) : WF hash (grow hash m) := by
  unfold grow
  split
  · exact rehash_wf hash h 1
  · split
    · exact rehash_wf hash h _
    · exact h

section Updates

variable [DecidableEq K] (hash : K → Nat)

theorem grow_lookup {m : HashMap K V} (h : WF hash m) (k : K) :
    contains hash (grow hash m) k = contains hash m k ∧
      at_ hash (grow hash m) k = at_ hash m k :=
  lookup_congr hash (grow_wf hash h) h k (fun _ => (grow_entries_perm hash m).mem_iff)

theorem contains_eq_chainHas {m : HashMap K V} (hc : 0 < m.capacity) (k : K) :
    contains hash m k = chainHas k (m.bucket (bucketIndex hash m k)) := by
  unfold contains
  rw [if_neg (by omega)]

theorem insert_present {m : HashMap K V} (h : WF hash m) (k : K) (v : V)
    (hk : contains hash m k = true) : insert hash m k v = grow hash m := by
  have h1 := (grow_lookup hash h k).1
  rw [hk, contains_eq_chainHas hash (grow_capacity_pos hash m)] at h1
  simp only [insert, h1, if_true]

theorem insert_absent {m : HashMap K V} (h : WF hash m) (k : K) (v : V)
    (hk : contains hash m k = false) :
    WF hash (insert hash m k v) ∧
    (entries (insert hash m k v)).Perm ((k, v) :: entries m) ∧
    (insert hash m k v).sz = m.sz + 1 := by
  have hw := grow_wf hash h
  have hpos := grow_capacity_pos hash m
  have h1 := (grow_lookup hash h k).1
  rw [hk, contains_eq_chainHas hash hpos] at h1
  have hidx : bucketIndex hash (grow hash m) k < (grow hash m).capacity := Nat.mod_lt _ hpos
  have hins : insert hash m k v =
      { setBucket (grow hash m) (bucketIndex hash (grow hash m) k)
          ((k, v) :: (grow hash m).bucket (bucketIndex hash (grow hash m) k)) with
        sz := (grow hash m).sz + 1 } := by
    simp only [insert, h1, Bool.false_eq_true, if_false]
  obtain ⟨A, B, hA, hB⟩ := entries_set hw.1 _ hidx
  obtain ⟨d, hd, hlen⟩ := allocated_cases hw.1 (by omega)
  have hperm : (entries (insert hash m k v)).Perm ((k, v) :: entries m) := by
    rw [hins, hB]
    refine List.Perm.trans ?_ (List.Perm.cons _ (grow_entries_perm hash m))
    rw [hA]
    simp only [List.append_assoc, List.cons_append]
    exact List.perm_middle
  have hnot : k ∉ (entries m).map Prod.fst := by
    intro hmem
    obtain ⟨e, he, hek⟩ := List.mem_map.1 hmem
    have : contains hash m k = true := (contains_iff hash h k).2 ⟨e.2, by rw [← hek]; exact he⟩
    rw [hk] at this
    exact Bool.false_ne_true this
  refine ⟨⟨?_, ?_, ?_, ?_⟩, hperm, ?_⟩
  · rw [hins]
    exact allocated_set hw.1 _ _ _
  · rw [(hperm.map Prod.fst).nodup_iff, List.map_cons, List.nodup_cons]
    exact ⟨hnot, h.2.1⟩
  · rw [hins]
    intro i hi e he
    rw [bucket_set hd _ (by omega)] at he
    have hi2 : i < (grow hash m).capacity := hi
    show hash e.1 % (grow hash m).capacity = i
    by_cases hii : i = bucketIndex hash (grow hash m) k
    · rw [if_pos hii] at he
      rcases List.mem_cons.1 he with he | he
      · rw [he, hii]
        rfl
      · rw [hii]
        exact hw.2.2.1 _ hidx e he
    · rw [if_neg hii] at he
      exact hw.2.2.1 i hi2 e he
  · rw [hperm.length_eq, hins]
    simp only [List.length_cons, grow_sz, h.2.2.2]
  · rw [hins]
    simp only [grow_sz]

theorem insert_wf {m : HashMap K V} (h : WF hash m) (k : K) (v : V) :
    WF hash (insert hash m k v) := by
  cases hk : contains hash m k with
  | false => exact (insert_absent hash h k v hk).1
  | true =>
    rw [insert_present hash h k v hk]
    exact grow_wf hash h

theorem erase_present {m : HashMap K V} (h : WF hash m) (k : K) (v : V)
    (hk : at_ hash m k = Except.ok v) :
    (erase hash m k).1 = Except.ok v ∧
    WF hash (erase hash m k).2 ∧
    (entries m).Perm ((k, v) :: entries (erase hash m k).2) ∧
    (erase hash m k).2.sz + 1 = m.sz := by
  have hc : m.capacity ≠ 0 := by
    intro hc
    simp [at_, hc] at hk
  have hat : chainAt k (m.bucket (bucketIndex hash m k)) = some v := by
    simp only [at_, hc, if_false] at hk
    cases hq : chainAt k (m.bucket (bucketIndex hash m k)) with
    | none => rw [hq] at hk; simp at hk
    | some u => rw [hq] at hk; simpa using hk
  have hidx : bucketIndex hash m k < m.capacity := Nat.mod_lt _ (by omega)
  cases he : chainErase k (m.bucket (bucketIndex hash m k)) with
  | none =>
    rw [chainErase_none_iff, ← chainAt_none_iff, hat] at he
    simp at he
  | some p =>
    obtain ⟨u, rest⟩ := p
    obtain ⟨hu, hp⟩ := chainErase_some he
    rw [hat] at hu
    simp only [Option.some.injEq] at hu
    subst hu
    have her : erase hash m k =
        (Except.ok v, { setBucket m (bucketIndex hash m k) rest with sz := m.sz - 1 }) := by
      simp only [erase, hc, if_false, he]
    obtain ⟨A, B, hA, hB⟩ := entries_set h.1 _ hidx
    obtain ⟨d, hd, hlen⟩ := allocated_cases h.1 hc
    have hperm : (entries m).Perm ((k, v) :: entries (erase hash m k).2) := by
      rw [her, hB, hA]
      have h3 : (A ++ (k, v) :: (rest ++ B)).Perm ((k, v) :: (A ++ (rest ++ B))) :=
        List.perm_middle
      have h4 : (A ++ m.bucket (bucketIndex hash m k) ++ B).Perm (A ++ ((k, v) :: rest) ++ B) :=
        (List.Perm.append_left A hp).append_right B
      refine h4.trans ?_
      rw [List.append_assoc, List.cons_append, List.append_assoc]
      exact h3
    have hlen2 : m.sz = (entries (erase hash m k).2).length + 1 := by
      rw [h.2.2.2, hperm.length_eq, List.length_cons]
    have hsz : (erase hash m k).2.sz = m.sz - 1 := by rw [her]
    refine ⟨by rw [her], ⟨?_, ?_, ?_, ?_⟩, hperm, by omega⟩
    · rw [her]
      exact allocated_set h.1 _ _ _
    · have := (hperm.map Prod.fst).nodup_iff.1 h.2.1
      rw [List.map_cons, List.nodup_cons] at this
      exact this.2
    · rw [her]
      intro i hi e hmem
      rw [bucket_set hd _ (by omega)] at hmem
      have hi2 : i < m.capacity := hi
      show hash e.1 % m.capacity = i
      by_cases hii : i = bucketIndex hash m k
      · rw [if_pos hii] at hmem
        rw [hii]
        exact h.2.2.1 _ hidx e (hp.mem_iff.2 (List.mem_cons_of_mem _ hmem))
      · rw [if_neg hii] at hmem
        exact h.2.2.1 i hi2 e hmem
    · omega

end Updates

/-! ## Fresh tables and insert sequences -/

theorem initBuckets_entries (x : HashMap K V) (c : Nat) : entries (initBuckets x c) = [] := by
  have hb : ∀ i, (initBuckets x c).bucket i = [] := by
    intro i
    simp [bucket, initBuckets]
  simp [entries, buckets, hb]

theorem initBuckets_wf (hash : K → Nat) (c : Nat) :
    WF hash (initBuckets (blank : HashMap K V) c) := by
  refine ⟨?_, ?_, ?_, ?_⟩
  · simp [Allocated, initBuckets]
  · rw [initBuckets_entries]
    exact List.nodup_nil
  · intro i _ e he
    simp [bucket, initBuckets] at he
  · rw [initBuckets_entries]
    rfl

theorem newCap_wf (hash : K → Nat) (c : Nat) : WF hash (newCap c : HashMap K V) := by
  unfold newCap
  split <;> exact initBuckets_wf hash _

theorem newCap_entries (c : Nat) : entries (newCap c : HashMap K V) = [] := by
  unfold newCap
  split <;> exact initBuckets_entries _ _

section Sequences

variable [DecidableEq K] (hash : K → Nat)

theorem mem_keys_iff {m : HashMap K V} (h : WF hash m) (k : K) :
    k ∈ keys m ↔ contains hash m k = true := by
  rw [contains_iff hash h, keys, List.mem_map]
  constructor
  · rintro ⟨e, he, rfl⟩
    exact ⟨e.2, he⟩
  · rintro ⟨v, hv⟩
    exact ⟨(k, v), hv, rfl⟩

theorem sz_eq_card {m : HashMap K V} (h : WF hash m) : m.sz = (keys m).toFinset.card := by
  unfold keys
  rw [List.toFinset_card_of_nodup h.2.1, List.length_map]
  exact h.2.2.2

theorem insert_keys {m : HashMap K V} (h : WF hash m) (k : K) (v : V) (k2 : K) :
    k2 ∈ keys (insert hash m k v) ↔ k2 = k ∨ k2 ∈ keys m := by
  cases hk : contains hash m k with
  | false =>
    have hp : k2 ∈ keys (insert hash m k v) ↔ k2 ∈ ((k, v) :: entries m).map Prod.fst :=
      ((insert_absent hash h k v hk).2.1.map Prod.fst).mem_iff
    simpa [keys] using hp
  | true =>
    rw [insert_present hash h k v hk]
    have hp : k2 ∈ keys (grow hash m) ↔ k2 ∈ keys m :=
      ((grow_entries_perm hash m).map Prod.fst).mem_iff
    have hkm : k ∈ keys m := (mem_keys_iff hash h k).2 hk
    constructor
    · intro h2
      exact Or.inr (hp.1 h2)
    · rintro (rfl | h2)
      · exact hp.2 hkm
      · exact hp.2 h2

theorem insertAll_spec {m : HashMap K V} (h : WF hash m) (kvs : List (K × V)) :
    WF hash (insertAll hash m kvs) ∧
    ∀ k, k ∈ keys (insertAll hash m kvs) ↔ k ∈ keys m ∨ k ∈ kvs.map Prod.fst := by
  induction kvs generalizing m with
  | nil => exact ⟨h, by simp [insertAll]⟩
  | cons kv rest ih =>
    obtain ⟨h1, h2⟩ := ih (insert_wf hash h kv.1 kv.2)
    refine ⟨h1, ?_⟩
    intro k
    rw [insertAll, h2 k, insert_keys hash h]
    simp only [List.map_cons, List.mem_cons]
    tauto

theorem insertAll_fresh {m : HashMap K V} (h : WF hash m) (he : entries m = [])
    (kvs : List (K × V)) :
    size (insertAll hash m kvs) = (kvs.map Prod.fst).dedup.length ∧
    ∀ k, contains hash (insertAll hash m kvs) k = true ↔ k ∈ kvs.map Prod.fst := by
  obtain ⟨h1, h2⟩ := insertAll_spec hash h kvs
  have hk : keys m = [] := by rw [keys, he]; rfl
  constructor
  · rw [size, sz_eq_card hash h1, ← List.card_toFinset]
    congr 1
    ext k
    simp [h2 k, hk]
  · intro k
    rw [← mem_keys_iff hash h1, h2 k, hk]
    simp

end Sequences

/-! ## The begin/next scan -/

theorem buckets_length (m : HashMap K V) : (buckets m).length = m.capacity := by
  simp [buckets]

theorem buckets_congr {m m2 : HashMap K V} (hd : m2.data = m.data)
    (hc : m2.capacity = m.capacity) : buckets m2 = buckets m := by
  have hb : m2.bucket = m.bucket := by
    funext i
    simp [bucket, hd]
  simp [buckets, hb, hc]

theorem drop_buckets (m : HashMap K V) (i : Nat) (hi : i < m.capacity) :
    (buckets m).drop i = m.bucket i :: (buckets m).drop (i + 1) := by
  rw [List.drop_eq_getElem_cons (by rw [buckets_length]; exact hi)]
  simp [buckets]

theorem skipEmpty_spec (m : HashMap K V) (fuel idx : Nat) (hf : m.capacity - idx ≤ fuel) :
    ((buckets m).drop (skipEmpty m fuel idx)).flatten = ((buckets m).drop idx).flatten ∧
    (skipEmpty m fuel idx < m.capacity → m.bucket (skipEmpty m fuel idx) ≠ []) := by
  induction fuel generalizing idx with
  | zero =>
    refine ⟨rfl, ?_⟩
    intro h
    simp only [skipEmpty] at h
    omega
  | succ fuel ih =>
    by_cases hc : idx < m.capacity ∧ m.bucket idx = []
    · have hcond : (decide (idx < m.capacity) && (m.bucket idx).isEmpty) = true := by
        simp [hc.1, hc.2]
      have hs : skipEmpty m (fuel + 1) idx = skipEmpty m fuel (idx + 1) := by
        simp only [skipEmpty, hcond, if_true]
      rw [hs]
      obtain ⟨h1, h2⟩ := ih (idx + 1) (by omega)
      refine ⟨?_, h2⟩
      rw [h1, drop_buckets m idx hc.1, hc.2]
      rfl
    · have hcond : (decide (idx < m.capacity) && (m.bucket idx).isEmpty) = false := by
        by_cases h1 : idx < m.capacity
        · have h2 : m.bucket idx ≠ [] := fun h => hc ⟨h1, h⟩
          simp [h1, List.isEmpty_iff, h2]
        · simp [h1]
      have hs : skipEmpty m (fuel + 1) idx = idx := by
        simp only [skipEmpty, hcond, Bool.false_eq_true, if_false]
      rw [hs]
      refine ⟨rfl, ?_⟩
      intro h1 h2
      exact hc ⟨h1, h2⟩

theorem settle_frame (m : HashMap K V) :
    (settle m).data = m.data ∧ (settle m).capacity = m.capacity ∧ (settle m).sz = m.sz := by
  unfold settle
  simp only
  split <;> exact ⟨rfl, rfl, rfl⟩

theorem settle_pending (m : HashMap K V) :
    pending (settle m) = ((buckets m).drop m.curr_idx).flatten ∧
    ((settle m).curr = [] → pending (settle m) = []) := by
  obtain ⟨h1, h2⟩ := skipEmpty_spec m (m.capacity - m.curr_idx) m.curr_idx (le_refl _)
  have hb : buckets (settle m) = buckets m :=
    buckets_congr (settle_frame m).1 (settle_frame m).2.1
  unfold pending
  rw [hb]
  unfold settle
  simp only
  split
  · rename_i hlt
    simp only
    refine ⟨?_, fun h => absurd h (h2 hlt)⟩
    rw [← h1, drop_buckets m _ hlt]
    rfl
  · rename_i hge
    simp only
    have hnil : (buckets m).drop (skipEmpty m (m.capacity - m.curr_idx) m.curr_idx + 1) = [] := by
      apply List.drop_eq_nil_of_le
      rw [buckets_length]
      omega
    have hnil2 : (buckets m).drop (skipEmpty m (m.capacity - m.curr_idx) m.curr_idx) = [] := by
      apply List.drop_eq_nil_of_le
      rw [buckets_length]
      omega
    rw [hnil]
    rw [hnil2] at h1
    refine ⟨?_, fun _ => rfl⟩
    rw [← h1]
    rfl

theorem next_done (m : HashMap K V)
    (hp : pending m = []) : next m = (none, m) := by
  have hc : m.curr = [] := by
    unfold pending at hp
    exact (List.append_eq_nil.1 hp).1
  unfold next
  rw [hc]

theorem next_step (m : HashMap K V) (hinv : m.curr = [] → pending m = [])
    (e : K × V) (p : List (K × V)) (hp : pending m = e :: p) :
    (next m).1 = some e ∧ pending (next m).2 = p ∧
    ((next m).2.curr = [] → pending (next m).2 = []) ∧
    (next m).2.data = m.data ∧ (next m).2.capacity = m.capacity := by
  cases hc : m.curr with
  | nil =>
    rw [hinv hc] at hp
    exact absurd hp (List.cons_ne_nil _ _).symm
  | cons node rest =>
    have hp2 := hp
    unfold pending at hp2
    rw [hc, List.cons_append] at hp2
    obtain ⟨he, hrest⟩ := List.cons.inj hp2
    subst he
    cases hr : rest with
    | nil =>
      have hn : next m = (some node, settle { m with curr_idx := m.curr_idx + 1 }) := by
        unfold next
        rw [hc, hr]
        rfl
      rw [hn]
      have hs := settle_pending ({ m with curr_idx := m.curr_idx + 1 } : HashMap K V)
      have hf := settle_frame ({ m with curr_idx := m.curr_idx + 1 } : HashMap K V)
      refine ⟨rfl, ?_, hs.2, hf.1, hf.2.1⟩
      rw [hs.1, ← hrest, hr]
      rfl
    | cons r rs =>
      have hn : next m = (some node, { m with curr := r :: rs }) := by
        unfold next
        rw [hc, hr]
        rfl
      rw [hn]
      refine ⟨rfl, ?_, ?_, rfl, rfl⟩
      · rw [← hrest, hr]
        rfl
      · intro h
        exact absurd h (List.cons_ne_nil _ _)

theorem nextTimes_done (m : HashMap K V) (hp : pending m = []) (n : Nat) :
    nextTimes m n = (List.replicate n none, m) := by
  induction n with
  | zero => rfl
  | succ n ih =>
    simp only [nextTimes, next_done m hp, ih, List.replicate_succ]

theorem nextTimes_pending (l : List (K × V)) (m : HashMap K V)
    (hinv : m.curr = [] → pending m = []) (hp : pending m = l) (n : Nat) :
    (nextTimes m (l.length + n)).1 = l.map some ++ List.replicate n none := by
  induction l generalizing m with
  | nil =>
    rw [nextTimes_done m hp]
    simp
  | cons e p ih =>
    obtain ⟨h1, h2, h3, -, -⟩ := next_step m hinv e p hp
    have hlen : (e :: p).length + n = (p.length + n) + 1 := by
      simp only [List.length_cons]
      omega
    rw [hlen]
    simp only [nextTimes, h1, ih (next m).2 h3 h2, List.map_cons, List.cons_append]

theorem begin_frame (m : HashMap K V) :
    (begin m).data = m.data ∧ (begin m).capacity = m.capacity ∧ (begin m).sz = m.sz := by
  unfold begin
  simp only
  split
  · exact ⟨rfl, rfl, rfl⟩
  · exact settle_frame _

theorem begin_pending (m : HashMap K V) :
    pending (begin m) = entries m ∧ ((begin m).curr = [] → pending (begin m) = []) := by
  unfold begin
  simp only
  split
  · rename_i hc
    have hb : buckets m = [] := by
      apply List.eq_nil_of_length_eq_zero
      rw [buckets_length]
      exact hc
    have hp : pending ({ m with curr := [], curr_idx := 0 } : HashMap K V) = [] := by
      have : buckets ({ m with curr := [], curr_idx := 0 } : HashMap K V) = buckets m := rfl
      simp [pending, this, hb]
    refine ⟨?_, fun _ => hp⟩
    rw [hp, entries, hb]
    rfl
  · have hs := settle_pending ({ m with curr := [], curr_idx := 0 } : HashMap K V)
    refine ⟨?_, hs.2⟩
    rw [hs.1]
    rfl

theorem traversal_eq_entries (m : HashMap K V) (n : Nat) :
    (nextTimes (begin m) ((entries m).length + n)).1 =
      (entries m).map some ++ List.replicate n none :=
  nextTimes_pending (entries m) (begin m) (begin_pending m).2 (begin_pending m).1 n

/-! ## Equality of tables -/

theorem operator_eq_loop (A : HashMap K V) (f : K × V → Bool) :
    (List.range A.capacity).all (fun i => (A.bucket i).all f) = true ↔
      ∀ e ∈ entries A, f e = true := by
  simp only [List.all_eq_true, List.mem_range]
  constructor
  · intro h e he
    obtain ⟨i, hi, hmem⟩ := (mem_entries_iff A e).1 he
    exact h i hi e hmem
  · intro h i hi e hmem
    exact h e ((mem_entries_iff A e).2 ⟨i, hi, hmem⟩)

theorem same_entries_iff [DecidableEq K] (hash : K → Nat) {A B : HashMap K V} (hA : WF hash A) (hB : WF hash B) :
    (A.sz = B.sz ∧ ∀ e ∈ entries A, e ∈ entries B) ↔
      ∀ k, contains hash A k = contains hash B k ∧
        (contains hash A k = true → at_ hash A k = at_ hash B k) := by
  have hnA : (entries A).Nodup := List.Nodup.of_map Prod.fst hA.2.1
  have hnB : (entries B).Nodup := List.Nodup.of_map Prod.fst hB.2.1
  constructor
  · rintro ⟨hs, hsub⟩
    have hperm : (entries A).Perm (entries B) := by
      apply (List.subperm_of_subset hnA hsub).perm_of_length_le
      rw [← hA.2.2.2, ← hB.2.2.2, hs]
    intro k
    have := lookup_congr hash hA hB k (fun v => hperm.mem_iff)
    exact ⟨this.1, fun _ => this.2⟩
  · intro h
    have hmem : ∀ e, e ∈ entries A ↔ e ∈ entries B := by
      rintro ⟨k, v⟩
      obtain ⟨h1, h2⟩ := h k
      constructor
      · intro he
        have hc : contains hash A k = true := (contains_iff hash hA k).2 ⟨v, he⟩
        rw [← at_ok_iff hash hB, ← h2 hc]
        exact (at_ok_iff hash hA k v).2 he
      · intro he
        have hc : contains hash A k = true := by
          rw [h1]
          exact (contains_iff hash hB k).2 ⟨v, he⟩
        rw [← at_ok_iff hash hA, h2 hc]
        exact (at_ok_iff hash hB k v).2 he
    have hperm : (entries A).Perm (entries B) := (List.perm_ext_iff_of_nodup hnA hnB).2 hmem
    refine ⟨?_, fun e he => (hmem e).1 he⟩
    rw [hA.2.2.2, hB.2.2.2, hperm.length_eq]

section Equality

variable [DecidableEq K] [BEq V] [LawfulBEq V] (hash : K → Nat)

theorem nodeMatches_iff {B : HashMap K V} (hB : WF hash B) (e : K × V) :
    nodeMatches hash B e = true ↔ e ∈ entries B := by
  obtain ⟨k, v⟩ := e
  unfold nodeMatches
  constructor
  · intro h
    cases hc : contains hash B k with
    | false => simp [hc] at h
    | true =>
      simp only [hc, Bool.not_true, Bool.false_eq_true, if_false] at h
      cases ha : at_ hash B k with
      | error x => simp [ha] at h
      | ok w =>
        simp only [ha, beq_iff_eq] at h
        subst h
        exact (at_ok_iff hash hB k w).1 ha
  · intro h
    have hc : contains hash B k = true := (contains_iff hash hB k).2 ⟨v, h⟩
    have ha : at_ hash B k = Except.ok v := (at_ok_iff hash hB k v).2 h
    simp [hc, ha]

theorem operator_eq_false_iff (A : HashMap K V) {B : HashMap K V} (hB : WF hash B) :
    operator_eq hash false A B = true ↔ A.sz = B.sz ∧ ∀ e ∈ entries A, e ∈ entries B := by
  unfold operator_eq
  simp only [Bool.false_eq_true, if_false]
  by_cases hs : A.sz = B.sz
  · simp only [hs, ne_eq, not_true_eq_false, if_false, true_and, operator_eq_loop,
      nodeMatches_iff hash hB]
  · simp [hs]

theorem operator_eq_same_mappings (same : Bool) {A B : HashMap K V} (hA : WF hash A)
    (hB : WF hash B) (hsame : same = true → A = B) :
    operator_eq hash same A B = true ↔
      ∀ k, contains hash A k = contains hash B k ∧
        (contains hash A k = true → at_ hash A k = at_ hash B k) := by
  cases same with
  | true =>
    have hab := hsame rfl
    subst hab
    simp [operator_eq]
  | false =>
    rw [operator_eq_false_iff hash A hB, same_entries_iff hash hA hB]

end Equality

/-! ## Copies and clear -/

theorem eq_of_fields {a b : HashMap K V} (h1 : a.data = b.data) (h2 : a.sz = b.sz)
    (h3 : a.capacity = b.capacity) (h4 : a.curr = b.curr) (h5 : a.curr_idx = b.curr_idx) :
    a = b := by
  cases a
  cases b
  simp_all

theorem set_fill {α : Type} (d : List α) (g : Nat → α) (n : Nat) (hn : n < d.length) :
    ((List.range n).map g ++ d.drop n).set n (g n) =
      (List.range (n + 1)).map g ++ d.drop (n + 1) := by
  have h0 : n - ((List.range n).map g).length = 0 := by simp
  rw [List.set_append, if_neg (by simp), List.drop_eq_getElem_cons hn, h0, List.set_cons_zero,
    List.range_succ, List.map_append, List.append_assoc]
  rfl

theorem copyChain_eq (c : List (K × V)) (s : Nat) : copyChain c s = (c, s + c.length) := by
  induction c generalizing s with
  | nil => rfl
  | cons x xs ih =>
    simp only [copyChain, ih, List.length_cons, Prod.mk.injEq, true_and]
    omega

theorem copy_loop (other self : HashMap K V) (x : List (List (K × V)))
    (hx : self.data = some x) (n : Nat) (hn : n ≤ x.length) :
    ((List.range n).foldl
      (fun self i =>
        let r := copyChain (other.bucket i) self.sz
        { setBucket self i r.1 with sz := r.2 }) self) =
      { self with
        data := some ((List.range n).map other.bucket ++ x.drop n),
        sz := self.sz + ((List.range n).map other.bucket).flatten.length } := by
  induction n with
  | zero =>
    apply eq_of_fields <;> simp [hx]
  | succ n ih =>
    rw [List.range_succ, List.foldl_append, ih (by omega)]
    simp only [List.foldl_cons, List.foldl_nil, copyChain_eq, setBucket, Option.map_some',
      set_fill x other.bucket n (by omega)]
    apply eq_of_fields <;> simp [List.range_succ]
    omega

theorem copyBuckets_init (x other : HashMap K V) :
    copyBuckets (initBuckets x other.capacity) other =
      { x with data := some (buckets other), capacity := other.capacity,
               sz := x.sz + (entries other).length } := by
  unfold copyBuckets
  rw [copy_loop other (initBuckets x other.capacity) (List.replicate other.capacity [])
    rfl other.capacity (by simp)]
  apply eq_of_fields <;> simp [initBuckets, buckets, entries]

theorem copy_eq (other : HashMap K V) (hc : other.capacity ≠ 0) :
    copy other =
      { data := some (buckets other), sz := (entries other).length,
        capacity := other.capacity, curr := [], curr_idx := 0 } := by
  unfold copy
  rw [if_neg hc, copyBuckets_init]
  apply eq_of_fields <;> simp [blank]

theorem operator_assign_eq_copy (self other : HashMap K V) :
    operator_assign false self other = copy other := by
  unfold operator_assign copy
  simp only [Bool.false_eq_true, if_false]
  split
  · rfl
  · rw [copyBuckets_init, copyBuckets_init]
    rfl

theorem wf_capacity_zero (hash : K → Nat) {m : HashMap K V} (h : WF hash m)
    (hc : m.capacity = 0) : entries m = [] ∧ m.sz = 0 := by
  have he : entries m = [] := by
    simp [entries, buckets, hc]
  exact ⟨he, by rw [h.2.2.2, he]; rfl⟩

theorem copy_spec (hash : K → Nat) {T : HashMap K V} (h : WF hash T) :
    (copy T).sz = T.sz ∧ (copy T).capacity = T.capacity ∧ entries (copy T) = entries T := by
  by_cases hc : T.capacity = 0
  · obtain ⟨he, hs⟩ := wf_capacity_zero hash h hc
    have : copy T = blank := by
      unfold copy
      rw [if_pos hc]
    rw [this, hs, hc, he]
    exact ⟨rfl, rfl, by simp [entries, buckets, blank]⟩
  · rw [copy_eq T hc]
    refine ⟨h.2.2.2.symm, rfl, ?_⟩
    exact congrArg List.flatten (buckets_of_some rfl (buckets_length T))

theorem free_loop (m : HashMap K V) (d : List (List (K × V))) (hd : m.data = some d)
    (n : Nat) (hn : n ≤ d.length) :
    (List.range n).foldl (fun m i => setBucket m i []) m =
      { m with data := some ((List.range n).map (fun _ => []) ++ d.drop n) } := by
  induction n with
  | zero =>
    apply eq_of_fields <;> simp [hd]
  | succ n ih =>
    rw [List.range_succ, List.foldl_append, ih (by omega)]
    simp only [List.foldl_cons, List.foldl_nil, setBucket, Option.map_some',
      set_fill d (fun _ => []) n (by omega)]
    apply eq_of_fields <;> simp [List.range_succ]

theorem clear_eq_newCap {m : HashMap K V} (ha : Allocated m) (hc : 1 ≤ m.capacity) :
    clear m = newCap m.capacity := by
  obtain ⟨d, hd, hlen⟩ := allocated_cases ha (by omega)
  have hf : freeNodes m =
      { (List.range m.capacity).foldl (fun m i => setBucket m i []) m with sz := 0 } := by
    unfold freeNodes
    rw [hd]
  unfold clear newCap
  rw [if_neg (by omega), hf, free_loop m d hd m.capacity (by omega)]
  apply eq_of_fields <;> simp [initBuckets, blank, ← hlen]

/-! ## Reads depend on the bucket array only -/

theorem next_frame (m : HashMap K V) :
    (next m).2.data = m.data ∧ (next m).2.capacity = m.capacity := by
  unfold next
  split
  · exact ⟨rfl, rfl⟩
  · split
    · exact ⟨rfl, rfl⟩
    · exact ⟨(settle_frame _).1, (settle_frame _).2.1⟩

theorem nextTimes_frame (m : HashMap K V) (n : Nat) :
    (nextTimes m n).2.data = m.data ∧ (nextTimes m n).2.capacity = m.capacity := by
  induction n generalizing m with
  | zero => exact ⟨rfl, rfl⟩
  | succ n ih =>
    obtain ⟨h1, h2⟩ := ih (next m).2
    obtain ⟨h3, h4⟩ := next_frame m
    exact ⟨h1.trans h3, h2.trans h4⟩

theorem at_congr [DecidableEq K] (hash : K → Nat) {m m2 : HashMap K V}
    (hd : m2.data = m.data) (hc : m2.capacity = m.capacity) (k : K) :
    at_ hash m2 k = at_ hash m k := by
  simp [at_, bucket, bucketIndex, hd, hc]

/-! ## Capacity -/

theorem setBucket_capacity (m : HashMap K V) (i : Nat) (c : List (K × V)) :
    (setBucket m i c).capacity = m.capacity := rfl

theorem foldl_setBucket_capacity (l : List Nat) (m : HashMap K V) :
    (l.foldl (fun m i => setBucket m i []) m).capacity = m.capacity := by
  induction l generalizing m with
  | nil => rfl
  | cons i l ih => rw [List.foldl_cons, ih, setBucket_capacity]

theorem clear_capacity (m : HashMap K V) : (clear m).capacity = m.capacity := by
  unfold clear freeNodes
  cases m.data with
  | none => rfl
  | some d => exact foldl_setBucket_capacity _ m

theorem copy_capacity (m : HashMap K V) : (copy m).capacity = m.capacity := by
  by_cases hc : m.capacity = 0
  · unfold copy
    rw [if_pos hc, hc]
    rfl
  · rw [copy_eq m hc]

theorem grow_capacity (hash : K → Nat) (m : HashMap K V) (hc : 1 ≤ m.capacity) :
    (grow hash m).capacity =
      if 2 * (m.sz + 1) > 3 * m.capacity then 2 * m.capacity else m.capacity := by
  unfold grow
  rw [if_neg (by omega)]
  split
  · rw [rehash_capacity, if_neg (by omega)]
    omega
  · rfl

section CapacityOps

variable [DecidableEq K] (hash : K → Nat)

theorem insert_capacity (m : HashMap K V) (k : K) (v : V) :
    (insert hash m k v).capacity = (grow hash m).capacity := by
  unfold insert
  simp only
  split <;> rfl

theorem erase_capacity (m : HashMap K V) (k : K) :
    (erase hash m k).2.capacity = m.capacity := by
  unfold erase
  split
  · rfl
  · simp only
    split <;> rfl

theorem reachable_capacity_pos {m : HashMap K V} (h : Reachable hash m) : 1 ≤ m.capacity := by
  induction h with
  | byNew => exact Nat.le_of_ble_eq_true rfl
  | byNewCap c =>
    unfold newCap
    split
    · exact Nat.le_refl 1
    · show 1 ≤ c
      omega
  | byInsert key value _ _ =>
    rw [insert_capacity]
    exact grow_capacity_pos hash _
  | byErase key _ ih => rw [erase_capacity]; exact ih
  | byClear _ ih => rw [clear_capacity]; exact ih
  | byCopy _ ih => rw [copy_capacity]; exact ih
  | byAssign _ _ _ ih => rw [operator_assign_eq_copy, copy_capacity]; exact ih
  | byBegin _ ih => rw [(begin_frame _).2.1]; exact ih
  | byNext _ ih => rw [(next_frame _).2]; exact ih

theorem insertAll_append (m : HashMap K V) (l1 l2 : List (K × V)) :
    insertAll hash m (l1 ++ l2) = insertAll hash (insertAll hash m l1) l2 := by
  induction l1 generalizing m with
  | nil => rfl
  | cons x xs ih => exact ih _

theorem insertAll_new_sz (kvs : List (K × V)) (hn : (kvs.map Prod.fst).Nodup) :
    (insertAll hash (new : HashMap K V) kvs).sz = kvs.length := by
  have := (insertAll_fresh hash (initBuckets_wf hash 10) (initBuckets_entries _ _) kvs).1
  rw [List.Nodup.dedup hn, List.length_map] at this
  exact this

theorem insertAll_new_capacity (kvs : List (K × V)) (hn : (kvs.map Prod.fst).Nodup)
    (hl : kvs.length ≤ 15) : (insertAll hash (new : HashMap K V) kvs).capacity = 10 := by
  induction kvs using List.reverseRecOn with
  | nil => rfl
  | append_singleton l x ih =>
    have hnl : (l.map Prod.fst).Nodup := by
      rw [List.map_append] at hn
      exact (List.nodup_append.1 hn).1
    have hlen : l.length + 1 ≤ 15 := by simpa using hl
    have hc := ih hnl (by omega)
    have hs := insertAll_new_sz hash l hnl
    rw [insertAll_append]
    show (insert hash (insertAll hash new l) x.1 x.2).capacity = 10
    rw [insert_capacity, grow_capacity hash _ (by omega), hc, hs, if_neg (by omega)]

theorem insertAll_new_capacity_16 (kvs : List (K × V)) (hn : (kvs.map Prod.fst).Nodup)
    (hl : kvs.length = 16) : (insertAll hash (new : HashMap K V) kvs).capacity = 20 := by
  cases kvs using List.reverseRecOn with
  | nil => simp at hl
  | append_singleton l x =>
    have hnl : (l.map Prod.fst).Nodup := by
      rw [List.map_append] at hn
      exact (List.nodup_append.1 hn).1
    have hlen : l.length = 15 := by simpa using hl
    have hc := insertAll_new_capacity hash l hnl (by omega)
    have hs := insertAll_new_sz hash l hnl
    rw [insertAll_append]
    show (insert hash (insertAll hash new l) x.1 x.2).capacity = 20
    rw [insert_capacity, grow_capacity hash _ (by omega), hc, hs, hlen, if_pos (by omega)]

end CapacityOps

/-! ## Well-formedness is kept -/

theorem wf_of_same_buckets (hash : K → Nat) {m m2 : HashMap K V} (h : WF hash m)
    (hd : m2.data = m.data) (hc : m2.capacity = m.capacity) (hs : m2.sz = m.sz) :
    WF hash m2 := by
  have hb : m2.bucket = m.bucket := by
    funext i
    simp [bucket, hd]
  have he : entries m2 = entries m := by
    rw [entries, entries, buckets_congr hd hc]
  refine ⟨?_, ?_, ?_, ?_⟩
  · have := h.1
    unfold Allocated at this ⊢
    rw [hd, hc]
    exact this
  · rw [he]
    exact h.2.1
  · rw [hb, hc]
    exact h.2.2.1
  · rw [he, hs]
    exact h.2.2.2

theorem clear_wf (hash : K → Nat) {m : HashMap K V} (h : WF hash m) : WF hash (clear m) := by
  by_cases hc : m.capacity = 0
  · obtain ⟨-, hs⟩ := wf_capacity_zero hash h hc
    have hdata : (clear m).data = m.data := by
      unfold clear freeNodes
      split
      · rfl
      · simp [hc]
    have hsz : (clear m).sz = m.sz := by
      unfold clear freeNodes
      split
      · rfl
      · simp [hs]
    exact wf_of_same_buckets hash h hdata (clear_capacity m) hsz
  · rw [clear_eq_newCap h.1 (by omega)]
    exact newCap_wf hash _

theorem copy_wf (hash : K → Nat) {m : HashMap K V} (h : WF hash m) : WF hash (copy m) := by
  by_cases hc : m.capacity = 0
  · have : copy m = blank := by
      unfold copy
      rw [if_pos hc]
    rw [this]
    refine ⟨rfl, ?_, ?_, ?_⟩
    · simp [entries, buckets, blank]
    · intro i hi
      exact absurd hi (Nat.not_lt_zero _)
    · simp [entries, buckets, blank]
  · obtain ⟨d, hd, hlen⟩ := allocated_cases h.1 hc
    have hb : buckets m = d := buckets_of_some hd hlen
    apply wf_of_same_buckets hash h
    · rw [copy_eq m hc, hb, hd]
    · rw [copy_eq m hc]
    · rw [copy_eq m hc]
      exact h.2.2.2.symm

theorem operator_assign_wf (hash : K → Nat) {src : HashMap K V} (h : WF hash src) (same : Bool)
    (dst : HashMap K V) (hsame : same = true → dst = src) :
    WF hash (operator_assign same dst src) := by
  cases same with
  | true =>
    rw [hsame rfl]
    exact h
  | false =>
    rw [operator_assign_eq_copy]
    exact copy_wf hash h

section Preservation

variable [DecidableEq K] (hash : K → Nat)

theorem erase_of_absent (m : HashMap K V) (k : K) (hk : contains hash m k = false) :
    erase hash m k = (Except.error Exn.out_of_range, m) := by
  unfold erase
  by_cases hc : m.capacity = 0
  · rw [if_pos hc]
  · rw [if_neg hc]
    have : chainErase k (m.bucket (bucketIndex hash m k)) = none := by
      rw [chainErase_none_iff, ← contains_eq_chainHas hash (by omega)]
      exact hk
    simp only [this]

theorem erase_wf {m : HashMap K V} (h : WF hash m) (k : K) : WF hash (erase hash m k).2 := by
  cases hk : contains hash m k with
  | false =>
    rw [erase_of_absent hash m k hk]
    exact h
  | true =>
    obtain ⟨v, hv⟩ := (contains_iff hash h k).1 hk
    exact (erase_present hash h k v ((at_ok_iff hash h k v).2 hv)).2.1

end Preservation

/-! ## Symmetry of equality -/

section Symmetry

variable [DecidableEq K] [BEq V] (hash : K → Nat)

theorem nodeMatches_beq {B : HashMap K V} (hB : WF hash B) (e : K × V) :
    nodeMatches hash B e = true ↔ ∃ w, (e.1, w) ∈ entries B ∧ (w == e.2) = true := by
  obtain ⟨k, v⟩ := e
  unfold nodeMatches
  constructor
  · intro h
    cases hc : contains hash B k with
    | false => simp [hc] at h
    | true =>
      simp only [hc, Bool.not_true, Bool.false_eq_true, if_false] at h
      cases ha : at_ hash B k with
      | error x => simp [ha] at h
      | ok w =>
        simp only [ha] at h
        exact ⟨w, (at_ok_iff hash hB k w).1 ha, h⟩
  · rintro ⟨w, hw, hbeq⟩
    have hc : contains hash B k = true := (contains_iff hash hB k).2 ⟨w, hw⟩
    have ha : at_ hash B k = Except.ok w := (at_ok_iff hash hB k w).2 hw
    simp only [hc, Bool.not_true, Bool.false_eq_true, if_false, ha]
    exact hbeq

theorem operator_eq_false_beq (A : HashMap K V) {B : HashMap K V} (hB : WF hash B) :
    operator_eq hash false A B = true ↔
      A.sz = B.sz ∧ ∀ e ∈ entries A, ∃ w, (e.1, w) ∈ entries B ∧ (w == e.2) = true := by
  unfold operator_eq
  simp only [Bool.false_eq_true, if_false]
  by_cases hs : A.sz = B.sz
  · simp only [hs, ne_eq, not_true_eq_false, if_false, true_and, operator_eq_loop,
      nodeMatches_beq hash hB]
  · simp [hs]

theorem operator_eq_false_flip (hsymm : ∀ v w : V, (v == w) = (w == v)) {A B : HashMap K V}
    (hA : WF hash A) (hB : WF hash B) (h : operator_eq hash false A B = true) :
    operator_eq hash false B A = true := by
  obtain ⟨hs, hm⟩ := (operator_eq_false_beq hash A hB).1 h
  rw [operator_eq_false_beq hash B hA]
  refine ⟨hs.symm, ?_⟩
  have hsub : keys A ⊆ keys B := by
    intro k hk
    obtain ⟨e, he, rfl⟩ := List.mem_map.1 hk
    obtain ⟨w, hw, -⟩ := hm e he
    exact List.mem_map.2 ⟨(e.1, w), hw, rfl⟩
  have hperm : (keys A).Perm (keys B) := by
    apply (List.subperm_of_subset hA.2.1 hsub).perm_of_length_le
    simp only [keys, List.length_map]
    rw [← hA.2.2.2, ← hB.2.2.2, hs]
  rintro ⟨k, w⟩ hkw
  have hkB : k ∈ keys B := List.mem_map.2 ⟨(k, w), hkw, rfl⟩
  obtain ⟨e, he, hek⟩ := List.mem_map.1 (hperm.mem_iff.2 hkB)
  obtain ⟨w2, hw2, hbeq⟩ := hm e he
  have hk2 : (k, w2) ∈ entries B := by rw [← hek]; exact hw2
  have hww : w2 = w := keys_unique hB.2.1 hk2 hkw
  refine ⟨e.2, ?_, ?_⟩
  · have : (e.1, e.2) ∈ entries A := he
    rw [hek] at this
    exact this
  · rw [hsymm, ← hww]
    exact hbeq

theorem operator_eq_comm (hsymm : ∀ v w : V, (v == w) = (w == v)) (same : Bool)
    {A B : HashMap K V} (hA : WF hash A) (hB : WF hash B) :
    operator_eq hash same A B = operator_eq hash same B A := by
  cases same with
  | true => rfl
  | false =>
    rw [Bool.eq_iff_iff]
    exact ⟨operator_eq_false_flip hash hsymm hA hB, operator_eq_false_flip hash hsymm hB hA⟩

end Symmetry

/-! ## The frame of erase -/

theorem bucket_ne_nil {m : HashMap K V} {i : Nat} (h : m.bucket i ≠ []) :
    ∃ d, m.data = some d ∧ i < d.length := by
  unfold bucket at h
  cases hd : m.data with
  | none => rw [hd] at h; exact absurd rfl h
  | some d =>
    refine ⟨d, rfl, ?_⟩
    rw [hd] at h
    by_contra hlt
    apply h
    simp only
    rw [List.getD_eq_default _ _ (by omega)]

section EraseFrame

variable [DecidableEq K] (hash : K → Nat)

theorem chainErase_split {key : K} {c : List (K × V)} {v : V} {rest : List (K × V)}
    (h : chainErase key c = some (v, rest)) :
    ∃ pre post, c = pre ++ (key, v) :: post ∧ (∀ e ∈ pre, e.1 ≠ key) ∧ rest = pre ++ post := by
  induction c generalizing rest with
  | nil => simp [chainErase] at h
  | cons node next ih =>
    obtain ⟨k, w⟩ := node
    by_cases hk : k = key
    · subst hk
      simp only [chainErase, if_true, Option.some.injEq, Prod.mk.injEq] at h
      obtain ⟨h1, h2⟩ := h
      subst h1 h2
      exact ⟨[], next, rfl, by simp, rfl⟩
    · simp only [chainErase, if_neg hk] at h
      cases hr : chainErase key next with
      | none => rw [hr] at h; simp at h
      | some p =>
        obtain ⟨v1, rest1⟩ := p
        rw [hr] at h
        simp only [Option.some.injEq, Prod.mk.injEq] at h
        obtain ⟨h1, h2⟩ := h
        subst h1 h2
        obtain ⟨pre, post, hc, hpre, hrest⟩ := ih hr
        refine ⟨(k, w) :: pre, post, by rw [hc]; rfl, ?_, by rw [hrest]; rfl⟩
        intro e he
        rcases List.mem_cons.1 he with he | he
        · rw [he]
          exact hk
        · exact hpre e he

theorem erase_frame (m : HashMap K V) (k : K) (hk : contains hash m k = true) :
    ∃ v pre post,
      m.bucket (hash k % m.capacity) = pre ++ (k, v) :: post ∧
      (∀ e ∈ pre, e.1 ≠ k) ∧
      (erase hash m k).1 = Except.ok v ∧
      (erase hash m k).2.bucket (hash k % m.capacity) = pre ++ post ∧
      (∀ j, j ≠ hash k % m.capacity → (erase hash m k).2.bucket j = m.bucket j) ∧
      (erase hash m k).2.capacity = m.capacity ∧
      (erase hash m k).2.sz = m.sz - 1 := by
  have hc : m.capacity ≠ 0 := by
    intro hc
    simp [contains, hc] at hk
  rw [contains_eq_chainHas hash (by omega)] at hk
  have hne : m.bucket (bucketIndex hash m k) ≠ [] := by
    intro h
    rw [h] at hk
    simp [chainHas] at hk
  obtain ⟨d, hd, hlt⟩ := bucket_ne_nil hne
  cases he : chainErase k (m.bucket (bucketIndex hash m k)) with
  | none =>
    rw [chainErase_none_iff, hk] at he
    exact absurd he (by simp)
  | some p =>
    obtain ⟨v, rest⟩ := p
    obtain ⟨pre, post, h1, h2, h3⟩ := chainErase_split he
    have her : erase hash m k =
        (Except.ok v, { setBucket m (bucketIndex hash m k) rest with sz := m.sz - 1 }) := by
      simp only [erase, hc, if_false, he]
    refine ⟨v, pre, post, h1, h2, by rw [her], ?_, ?_, by rw [her]; rfl, by rw [her]⟩
    · rw [her]
      show bucket _ (bucketIndex hash m k) = pre ++ post
      rw [bucket_set hd _ hlt, if_pos rfl, h3]
    · intro j hj
      have hj2 : j ≠ bucketIndex hash m k := hj
      rw [her]
      show bucket _ j = m.bucket j
      rw [bucket_set hd _ hlt, if_neg hj2]

end EraseFrame

/-! ## Restarting a scan -/

theorem begin_eq_of_fields {m m2 : HashMap K V} (hd : m2.data = m.data)
    (hc : m2.capacity = m.capacity) (hs : m2.sz = m.sz) : begin m2 = begin m := by
  unfold begin
  simp only [hd, hc, hs]

theorem next_sz (m : HashMap K V) : (next m).2.sz = m.sz := by
  unfold next
  split
  · rfl
  · split
    · rfl
    · exact (settle_frame _).2.2

theorem nextTimes_sz (m : HashMap K V) (n : Nat) : (nextTimes m n).2.sz = m.sz := by
  induction n generalizing m with
  | zero => rfl
  | succ n ih => exact (ih (next m).2).trans (next_sz m)

theorem begin_restart (m : HashMap K V) (j : Nat) :
    begin (nextTimes (begin m) j).2 = begin m := by
  have h1 := nextTimes_frame (begin m) j
  have h2 := begin_frame m
  have h3 : begin (nextTimes (begin m) j).2 = begin (begin m) :=
    begin_eq_of_fields h1.1 h1.2 (nextTimes_sz _ _)
  rw [h3]
  exact begin_eq_of_fields h2.1 h2.2.1 h2.2.2

/-! ## Head placement -/

theorem grow_cases (hash : K → Nat) (m : HashMap K V) :
    (m.capacity = 0 → grow hash m = rehash hash m 1) ∧
    (m.capacity ≠ 0 → 2 * (m.sz + 1) > 3 * m.capacity →
      grow hash m = rehash hash m (m.capacity * 2)) ∧
    (m.capacity ≠ 0 → 2 * (m.sz + 1) ≤ 3 * m.capacity → grow hash m = m) := by
  refine ⟨?_, ?_, ?_⟩
  · intro hc
    unfold grow
    rw [if_pos hc]
  · intro hc hgt
    unfold grow
    rw [if_neg hc, if_pos hgt]
  · intro hc hle
    unfold grow
    rw [if_neg hc, if_neg (Nat.not_lt.2 hle)]

section HeadPlacement

variable [DecidableEq K] (hash : K → Nat)

theorem insert_absent_eq {m : HashMap K V} (h : WF hash m) (k : K) (v : V)
    (hk : contains hash m k = false) :
    insert hash m k v =
      { setBucket (grow hash m) (hash k % (grow hash m).capacity)
          ((k, v) :: (grow hash m).bucket (hash k % (grow hash m).capacity)) with
        sz := (grow hash m).sz + 1 } := by
  have h1 := (grow_lookup hash h k).1
  rw [hk, contains_eq_chainHas hash (grow_capacity_pos hash m)] at h1
  simp only [insert, h1, Bool.false_eq_true, if_false]
  rfl

theorem insert_head {m : HashMap K V} (h : WF hash m) (k : K) (v : V)
    (hk : contains hash m k = false) :
    (insert hash m k v).bucket (hash k % (grow hash m).capacity) =
      (k, v) :: (grow hash m).bucket (hash k % (grow hash m).capacity) ∧
    (∀ j, j ≠ hash k % (grow hash m).capacity →
      (insert hash m k v).bucket j = (grow hash m).bucket j) := by
  have hw := grow_wf hash h
  have hpos := grow_capacity_pos hash m
  obtain ⟨d, hd, hlen⟩ := allocated_cases hw.1 (by omega)
  have hlt : hash k % (grow hash m).capacity < d.length := by
    rw [hlen]
    exact Nat.mod_lt _ hpos
  rw [insert_absent_eq hash h k v hk]
  refine ⟨?_, ?_⟩
  · rw [bucket_set hd _ hlt, if_pos rfl]
  · intro j hj
    rw [bucket_set hd _ hlt, if_neg hj]

/-! ## Capacity zero -/

theorem contains_zero (m : HashMap K V) (hc : m.capacity = 0) (k : K) :
    contains hash m k = false := by
  unfold contains
  rw [if_pos hc]

theorem at_zero (m : HashMap K V) (hc : m.capacity = 0) (k : K) :
    at_ hash m k = Except.error Exn.out_of_range := by
  unfold at_
  rw [if_pos hc]

theorem erase_zero (m : HashMap K V) (hc : m.capacity = 0) (k : K) :
    erase hash m k = (Except.error Exn.out_of_range, m) := by
  unfold erase
  rw [if_pos hc]

theorem insert_zero (m : HashMap K V) (hc : m.capacity = 0) (k : K) (v : V) :
    grow hash m = { m with data := some [[]], capacity := 1 } ∧
    insert hash m k v = { m with data := some [[(k, v)]], capacity := 1, sz := m.sz + 1 } := by
  have hg : grow hash m = { m with data := some [[]], capacity := 1 } := by
    rw [(grow_cases hash m).1 hc]
    simp [rehash, hc]
  refine ⟨hg, ?_⟩
  unfold insert
  simp only [hg]
  simp [bucketIndex, bucket, setBucket, chainHas, Nat.mod_one]

end HeadPlacement

theorem begin_zero (m : HashMap K V) (hc : m.capacity = 0) :
    begin m = { m with curr := [], curr_idx := 0 } ∧ next (begin m) = (none, begin m) := by
  have hb : begin m = { m with curr := [], curr_idx := 0 } := by
    unfold begin
    simp only [hc, if_true]
  refine ⟨hb, ?_⟩
  rw [hb]
  rfl

/-! ## The load factor of reachable tables -/

theorem newCap_sz (c : Nat) : (newCap c : HashMap K V).sz = 0 := by
  unfold newCap
  split <;> rfl

section LoadFactor

variable [DecidableEq K] (hash : K → Nat)

theorem reachable_wf {m : HashMap K V} (h : Reachable hash m) : WF hash m := by
  induction h with
  | byNew => exact initBuckets_wf hash 10
  | byNewCap c => exact newCap_wf hash c
  | byInsert key value _ ih => exact insert_wf hash ih key value
  | byErase key _ ih => exact erase_wf hash ih key
  | byClear _ ih => exact clear_wf hash ih
  | byCopy _ ih => exact copy_wf hash ih
  | byAssign _ _ _ ih => exact operator_assign_wf hash ih false _ (fun h => absurd h (by decide))
  | byBegin _ ih =>
    exact wf_of_same_buckets hash ih (begin_frame _).1 (begin_frame _).2.1 (begin_frame _).2.2
  | byNext _ ih =>
    exact wf_of_same_buckets hash ih (next_frame _).1 (next_frame _).2 (next_sz _)

theorem insert_sz_le (m : HashMap K V) (k : K) (v : V) :
    (insert hash m k v).sz ≤ m.sz + 1 := by
  unfold insert
  simp only
  split
  · rw [grow_sz]
    omega
  · show (grow hash m).sz + 1 ≤ m.sz + 1
    rw [grow_sz]

theorem erase_sz_le (m : HashMap K V) (k : K) : (erase hash m k).2.sz ≤ m.sz := by
  unfold erase
  split
  · exact Nat.le_refl _
  · simp only
    split
    · exact Nat.le_refl _
    · show m.sz - 1 ≤ m.sz
      omega

theorem insert_load {m : HashMap K V} (hc : 1 ≤ m.capacity) (hl : 2 * m.sz ≤ 3 * m.capacity)
    (k : K) (v : V) :
    ((insert hash m k v).capacity = m.capacity ∨
      (insert hash m k v).capacity = 2 * m.capacity) ∧
    2 * (insert hash m k v).sz ≤ 3 * (insert hash m k v).capacity := by
  have hs := insert_sz_le hash m k v
  have hcap : (insert hash m k v).capacity =
      if 2 * (m.sz + 1) > 3 * m.capacity then 2 * m.capacity else m.capacity := by
    rw [insert_capacity, grow_capacity hash m hc]
  by_cases hgt : 2 * (m.sz + 1) > 3 * m.capacity
  · rw [if_pos hgt] at hcap
    refine ⟨Or.inr hcap, ?_⟩
    rw [hcap]
    omega
  · rw [if_neg hgt] at hcap
    refine ⟨Or.inl hcap, ?_⟩
    rw [hcap]
    omega

theorem reachable_load {m : HashMap K V} (h : Reachable hash m) :
    2 * m.sz ≤ 3 * m.capacity := by
  induction h with
  | byNew => exact Nat.le_of_ble_eq_true rfl
  | byNewCap c =>
    rw [newCap_sz]
    omega
  | byInsert key value hm ih =>
    exact (insert_load hash (reachable_capacity_pos hash hm) ih key value).2
  | byErase key _ ih =>
    rw [erase_capacity]
    exact Nat.le_trans (Nat.mul_le_mul_left 2 (erase_sz_le hash _ key)) ih
  | byClear hm _ =>
    rw [clear_eq_newCap (reachable_wf hash hm).1 (reachable_capacity_pos hash hm), newCap_sz]
    omega
  | byCopy hm ih =>
    obtain ⟨h1, h2, -⟩ := copy_spec hash (reachable_wf hash hm)
    rw [h1, h2]
    exact ih
  | byAssign _ hsrc _ ih =>
    obtain ⟨h1, h2, -⟩ := copy_spec hash (reachable_wf hash hsrc)
    rw [operator_assign_eq_copy, h1, h2]
    exact ih
  | byBegin _ ih =>
    rw [(begin_frame _).2.1, (begin_frame _).2.2]
    exact ih
  | byNext _ ih =>
    rw [(next_frame _).2, next_sz]
    exact ih

end LoadFactor

theorem reachable_insertAll [DecidableEq K] (hash : K → Nat) {m : HashMap K V}
    (h : Reachable hash m) (kvs : List (K × V)) : Reachable hash (insertAll hash m kvs) := by
  induction kvs generalizing m with
  | nil => exact h
  | cons kv rest ih => exact ih (Reachable.byInsert kv.1 kv.2 h)

/-! ## No modulo by zero -/

theorem modChecked_pos (a : Nat) {b : Nat} (hb : 0 < b) : modChecked a b = some (a % b) := by
  unfold modChecked
  rw [if_neg (by omega)]

theorem foldlM_some {α β : Type} (f : β → α → Option β) (g : β → α → β)
    (h : ∀ b a, f b a = some (g b a)) (l : List α) (b : β) :
    l.foldlM f b = some (l.foldl g b) := by
  induction l generalizing b with
  | nil => rfl
  | cons a l ih =>
    rw [List.foldlM_cons, h]
    exact ih (g b a)

theorem moveNodeChecked_eq (hash : K → Nat) {n : Nat} (hn : 0 < n)
    (nd : List (List (K × V))) (e : K × V) :
    moveNodeChecked hash n nd e = some (moveNode hash n nd e) := by
  unfold moveNodeChecked moveNode
  rw [modChecked_pos _ hn]
  rfl

theorem rehashChecked_eq (hash : K → Nat) (m : HashMap K V) (n : Nat) :
    rehashChecked hash m n = some (rehash hash m n) := by
  have hpos : 0 < (if n = 0 then 1 else n) := by split <;> omega
  unfold rehashChecked rehash
  simp only
  rw [foldlM_some _
    (fun nd i => (m.bucket i).foldl (moveNode hash (if n = 0 then 1 else n)) nd)
    (fun nd i => foldlM_some _ _ (moveNodeChecked_eq hash hpos) (m.bucket i) nd)]
  rfl

theorem growChecked_eq (hash : K → Nat) (m : HashMap K V) :
    growChecked hash m = some (grow hash m) := by
  unfold growChecked grow
  split
  · exact rehashChecked_eq hash m 1
  · split
    · exact rehashChecked_eq hash m _
    · rfl

section Checked

variable [DecidableEq K] (hash : K → Nat)

theorem insertChecked_eq (m : HashMap K V) (k : K) (v : V) :
    insertChecked hash m k v = some (insert hash m k v) := by
  unfold insertChecked bucketIndexChecked
  rw [growChecked_eq, Option.some_bind, modChecked_pos _ (grow_capacity_pos hash m)]
  rfl

theorem containsChecked_eq (m : HashMap K V) (k : K) :
    containsChecked hash m k = some (contains hash m k) := by
  unfold containsChecked contains bucketIndexChecked
  by_cases hc : m.capacity = 0
  · rw [if_pos hc, if_pos hc]
  · rw [if_neg hc, if_neg hc, modChecked_pos _ (Nat.pos_of_ne_zero hc)]
    rfl

theorem atChecked_eq (m : HashMap K V) (k : K) :
    atChecked hash m k = some (at_ hash m k) := by
  unfold atChecked at_ bucketIndexChecked
  by_cases hc : m.capacity = 0
  · rw [if_pos hc, if_pos hc]
  · rw [if_neg hc, if_neg hc, modChecked_pos _ (Nat.pos_of_ne_zero hc)]
    rfl

theorem eraseChecked_eq (m : HashMap K V) (k : K) :
    eraseChecked hash m k = some (erase hash m k) := by
  unfold eraseChecked erase bucketIndexChecked
  by_cases hc : m.capacity = 0
  · rw [if_pos hc, if_pos hc]
  · rw [if_neg hc, if_neg hc, modChecked_pos _ (Nat.pos_of_ne_zero hc)]
    rfl

end Checked

/-! ## Copies under an arbitrary value equality -/

theorem copy_eq_source_of_refl [DecidableEq K] [BEq V] (hash : K → Nat) {T : HashMap K V}
    (h : WF hash T) (hrefl : ∀ v : V, (v == v) = true) :
    operator_eq hash false (copy T) T = true := by
  obtain ⟨h1, -, h3⟩ := copy_spec hash h
  rw [operator_eq_false_beq hash (copy T) h]
  refine ⟨h1, ?_⟩
  intro e he
  rw [h3] at he
  exact ⟨e.2, he, hrefl e.2⟩


/-! ## The claims -/

section Claims

variable [DecidableEq K]

/-- C1: starting from a freshly constructed table, of any requested capacity
or the default one, after any finite sequence of `insert` calls `size()` is
the number of distinct keys of the sequence and `contains(k)` is true exactly
for the keys that occur in it.  The hash function is any function on the
keys, hence consistent with key equality. -/
theorem insert_sequence_size_and_contains (hash : K → Nat) (kvs : List (K × V)) :
    (∀ c : Nat,
      size (insertAll hash (newCap c) kvs) = (kvs.map Prod.fst).dedup.length ∧
      ∀ k, contains hash (insertAll hash (newCap c) kvs) k = true ↔ k ∈ kvs.map Prod.fst) ∧
    (size (insertAll hash new kvs) = (kvs.map Prod.fst).dedup.length ∧
      ∀ k, contains hash (insertAll hash new kvs) k = true ↔ k ∈ kvs.map Prod.fst) :=
  ⟨fun c => insertAll_fresh hash (newCap_wf hash c) (newCap_entries c) kvs,
   insertAll_fresh hash (initBuckets_wf hash 10) (initBuckets_entries _ _) kvs⟩

/-- C2: on a well-formed table, `insert(k, v)` of an absent key `k` raises
`size()` by exactly 1, makes `contains(k)` true and `at(k)` equal to `v`, and
leaves `contains` and `at` of every other key as they were, whether or not the
call rehashes to a doubled capacity. -/
theorem insert_absent_effect (hash : K → Nat) (m : HashMap K V) (h : WF hash m) (k : K) (v : V)
    (hk : contains hash m k = false) :
    size (insert hash m k v) = size m + 1 ∧
    contains hash (insert hash m k v) k = true ∧
    at_ hash (insert hash m k v) k = Except.ok v ∧
    ∀ k2, k2 ≠ k →
      contains hash (insert hash m k v) k2 = contains hash m k2 ∧
      at_ hash (insert hash m k v) k2 = at_ hash m k2 := by
  obtain ⟨hw, hp, hs⟩ := insert_absent hash h k v hk
  have hin : (k, v) ∈ entries (insert hash m k v) := hp.mem_iff.2 (List.mem_cons_self _ _)
  refine ⟨hs, (contains_iff hash hw k).2 ⟨v, hin⟩, (at_ok_iff hash hw k v).2 hin, ?_⟩
  intro k2 hne
  apply lookup_congr hash hw h k2
  intro w
  rw [hp.mem_iff, List.mem_cons]
  constructor
  · rintro (heq | hmem)
    · exact absurd (Prod.mk.inj heq).1 hne
    · exact hmem
  · exact Or.inr

/-- Witness of C2: the sixteenth insert into a default table, which doubles
the capacity from 10 to 20. -/
theorem insert_absent_effect_witness :
    (get_capacity sampleFull = 10 ∧ get_capacity (insert (fun n => n) sampleFull 15 15) = 20) ∧
    size (insert (fun n => n) sampleFull 15 15) = size sampleFull + 1 ∧
    contains (fun n => n) (insert (fun n => n) sampleFull 15 15) 15 = true ∧
    at_ (fun n => n) (insert (fun n => n) sampleFull 15 15) 15 = Except.ok 15 ∧
    ∀ k2, k2 ≠ 15 →
      contains (fun n => n) (insert (fun n => n) sampleFull 15 15) k2 =
        contains (fun n => n) sampleFull k2 ∧
      at_ (fun n => n) (insert (fun n => n) sampleFull 15 15) k2 =
        at_ (fun n => n) sampleFull k2 :=
  ⟨by decide, insert_absent_effect (fun n => n) sampleFull (by decide) 15 15 (by decide)⟩

/-- C3: on a well-formed table, `insert(k, v2)` of a key already present with
value `v1` leaves `size()` unchanged and `at(k)` still returns `v1`; the call
returns normally. -/
theorem insert_duplicate_keeps_first (hash : K → Nat) (m : HashMap K V) (h : WF hash m)
    (k : K) (v1 v2 : V) (hk : at_ hash m k = Except.ok v1) :
    size (insert hash m k v2) = size m ∧
    at_ hash (insert hash m k v2) k = Except.ok v1 := by
  have hc : contains hash m k = true :=
    (contains_iff hash h k).2 ⟨v1, (at_ok_iff hash h k v1).1 hk⟩
  rw [insert_present hash h k v2 hc]
  exact ⟨grow_sz hash m, by rw [(grow_lookup hash h k).2, hk]⟩

/-- Witness of C3: a second insert of key 2 into the table `sampleChain`. -/
theorem insert_duplicate_keeps_first_witness :
    size (insert (fun n => n) sampleChain 2 999) = size sampleChain ∧
    at_ (fun n => n) (insert (fun n => n) sampleChain 2 999) 2 = Except.ok 200 :=
  insert_duplicate_keeps_first (fun n => n) sampleChain (by decide) 2 200 999 rfl

/-- C4: on a well-formed table, `contains(k)` is true iff some entry of the
table has key `k`; `at(k)` returns the value of that entry when there is one,
and throws `out_of_range` iff `contains(k)` is false.  Neither call changes
the table. -/
theorem lookup_spec [BEq V] (hash : K → Nat) (m : HashMap K V) (h : WF hash m) (k : K) :
    (contains hash m k = true ↔ ∃ v, (k, v) ∈ entries m) ∧
    (∀ v, (k, v) ∈ entries m → at_ hash m k = Except.ok v) ∧
    (at_ hash m k = Except.error Exn.out_of_range ↔ contains hash m k = false) ∧
    (call hash m (Call.contains k)).2 = m ∧
    (call hash m (Call.at_ k)).2 = m :=
  ⟨contains_iff hash h k, fun v hv => (at_ok_iff hash h k v).2 hv, at_error_iff hash m k,
   rfl, rfl⟩

/-- Witness of C4: key 2 in the table `sampleChain`. -/
theorem lookup_spec_witness :
    (contains (fun n => n) sampleChain 2 = true ↔ ∃ v, (2, v) ∈ entries sampleChain) ∧
    (∀ v, (2, v) ∈ entries sampleChain → at_ (fun n => n) sampleChain 2 = Except.ok v) ∧
    (at_ (fun n => n) sampleChain 2 = Except.error Exn.out_of_range ↔
      contains (fun n => n) sampleChain 2 = false) ∧
    (call (fun n => n) sampleChain (Call.contains 2)).2 = sampleChain ∧
    (call (fun n => n) sampleChain (Call.at_ 2)).2 = sampleChain :=
  lookup_spec (fun n => n) sampleChain (by decide) 2

/-- C5: on a well-formed table, `erase(k)` of a key present with value `v`
returns `v`, lowers `size()` by exactly 1, makes `contains(k)` false and
leaves `contains` and `at` of every other key as they were, wherever the
entry stood in its chain. -/
theorem erase_present_effect (hash : K → Nat) (m : HashMap K V) (h : WF hash m) (k : K) (v : V)
    (hk : at_ hash m k = Except.ok v) :
    (erase hash m k).1 = Except.ok v ∧
    size (erase hash m k).2 + 1 = size m ∧
    contains hash (erase hash m k).2 k = false ∧
    ∀ k2, k2 ≠ k →
      contains hash (erase hash m k).2 k2 = contains hash m k2 ∧
      at_ hash (erase hash m k).2 k2 = at_ hash m k2 := by
  obtain ⟨hr, hw, hp, hs⟩ := erase_present hash h k v hk
  refine ⟨hr, hs, ?_, ?_⟩
  · cases hc : contains hash (erase hash m k).2 k with
    | false => rfl
    | true =>
      exfalso
      obtain ⟨w, hw2⟩ := (contains_iff hash hw k).1 hc
      have hn := (hp.map Prod.fst).nodup_iff.1 h.2.1
      rw [List.map_cons, List.nodup_cons] at hn
      exact hn.1 (List.mem_map.2 ⟨(k, w), hw2, rfl⟩)
  · intro k2 hne
    apply lookup_congr hash hw h k2
    intro w
    rw [hp.mem_iff, List.mem_cons]
    constructor
    · exact Or.inr
    · rintro (heq | hmem)
      · exact absurd (Prod.mk.inj heq).1 hne
      · exact hmem

/-- Witness of C5: erasing the interior entry of a three-entry chain. -/
theorem erase_present_effect_witness :
    (erase (fun _ => 0) sampleColliding 2).1 = Except.ok 200 ∧
    size (erase (fun _ => 0) sampleColliding 2).2 + 1 = size sampleColliding ∧
    contains (fun _ => 0) (erase (fun _ => 0) sampleColliding 2).2 2 = false ∧
    ∀ k2, k2 ≠ 2 →
      contains (fun _ => 0) (erase (fun _ => 0) sampleColliding 2).2 k2 =
        contains (fun _ => 0) sampleColliding k2 ∧
      at_ (fun _ => 0) (erase (fun _ => 0) sampleColliding 2).2 k2 =
        at_ (fun _ => 0) sampleColliding k2 :=
  erase_present_effect (fun _ => 0) sampleColliding (by decide) 2 200 rfl

/-- C6: on every table, `erase(k)` of an absent key throws `out_of_range` and
leaves the table as it was: the same `sz`, `capacity`, bucket chains and
cursor. -/
theorem erase_absent_throws (hash : K → Nat) (m : HashMap K V) (k : K)
    (hk : contains hash m k = false) :
    erase hash m k = (Except.error Exn.out_of_range, m) := by
  unfold erase
  by_cases hc : m.capacity = 0
  · rw [if_pos hc]
  · rw [if_neg hc]
    have : chainErase k (m.bucket (bucketIndex hash m k)) = none := by
      rw [chainErase_none_iff, ← contains_eq_chainHas hash (by omega)]
      exact hk
    simp only [this]

/-- Witness of C6: erasing the absent key 7 from the table `sampleChain`. -/
theorem erase_absent_throws_witness :
    erase (fun n => n) sampleChain 7 = (Except.error Exn.out_of_range, sampleChain) :=
  erase_absent_throws (fun n => n) sampleChain 7 (by decide)

/-- C7: on a well-formed table, `begin()` followed by repeated `next()` returns
true exactly `size()` times and false from then on; the pairs delivered have
pairwise distinct keys, every delivered `(k, v)` has `at(k) == v` (before and
at any point of the scan), and every key with `contains(k)` is delivered.  On
an empty table the first `next()` returns false. -/
theorem traversal_spec (hash : K → Nat) (m : HashMap K V) (h : WF hash m) :
    ∃ ds : List (K × V),
      (∀ n, (nextTimes (begin m) (size m + n)).1 = ds.map some ++ List.replicate n none) ∧
      ds.length = size m ∧
      (ds.map Prod.fst).Nodup ∧
      (∀ k v, (k, v) ∈ ds →
        at_ hash m k = Except.ok v ∧
        ∀ j, at_ hash (nextTimes (begin m) j).2 k = Except.ok v) ∧
      (∀ k, contains hash m k = true → k ∈ ds.map Prod.fst) ∧
      (empty m = true → (next (begin m)).1 = none) := by
  refine ⟨entries m, ?_, h.2.2.2.symm, h.2.1, ?_, ?_, ?_⟩
  · intro n
    rw [size, h.2.2.2]
    exact traversal_eq_entries m n
  · intro k v hkv
    have hat := (at_ok_iff hash h k v).2 hkv
    refine ⟨hat, fun j => ?_⟩
    rw [at_congr hash ((nextTimes_frame (begin m) j).1.trans (begin_frame m).1)
      ((nextTimes_frame (begin m) j).2.trans (begin_frame m).2.1), hat]
  · intro k hk
    exact (mem_keys_iff hash h k).2 hk
  · intro he
    have hs : m.sz = 0 := by simpa [empty] using he
    have hnil : entries m = [] := List.eq_nil_of_length_eq_zero (h.2.2.2 ▸ hs)
    rw [next_done (begin m) ((begin_pending m).1.trans hnil)]

/-- Witness of C7: the scan of the table `sampleChain`. -/
theorem traversal_spec_witness :
    ∃ ds : List (Nat × Nat),
      (∀ n, (nextTimes (begin sampleChain) (size sampleChain + n)).1 =
        ds.map some ++ List.replicate n none) ∧
      ds.length = size sampleChain ∧
      (ds.map Prod.fst).Nodup ∧
      (∀ k v, (k, v) ∈ ds →
        at_ (fun n => n) sampleChain k = Except.ok v ∧
        ∀ j, at_ (fun n => n) (nextTimes (begin sampleChain) j).2 k = Except.ok v) ∧
      (∀ k, contains (fun n => n) sampleChain k = true → k ∈ ds.map Prod.fst) ∧
      (empty sampleChain = true → (next (begin sampleChain)).1 = none) :=
  traversal_spec (fun n => n) sampleChain (by decide)

/-- Counterexample to C8 as stated: a table holding `1 ↦ NaN` and its copy
are well-formed and hold the same mappings (the same keys, and `at` gives the
same value), yet `==` is false, because `NaN == NaN` is false. -/
theorem same_mappings_not_equal_counterexample :
    WF (fun n => n) sampleNaN ∧
    WF (fun n => n) (copy sampleNaN) ∧
    (∀ k, contains (fun n => n) sampleNaN k = contains (fun n => n) (copy sampleNaN) k ∧
      (contains (fun n => n) sampleNaN k = true →
        at_ (fun n => n) sampleNaN k = at_ (fun n => n) (copy sampleNaN) k)) ∧
    operator_eq (fun n => n) false sampleNaN (copy sampleNaN) = false := by
  have hcopy : copy sampleNaN = sampleNaN := rfl
  refine ⟨by decide, by decide, ?_, by decide⟩
  intro k
  rw [hcopy]
  exact ⟨rfl, fun _ => rfl⟩

/-- C8, amended: provided `==` on values is true exactly for equal values,
for two well-formed tables `A` and `B`, of any capacities and bucket layouts,
`A == B` is true iff they hold the same mappings: for every key `k`,
`A.contains(k)` iff `B.contains(k)`, and when present `A.at(k)` and `B.at(k)`
are equal.  `same` is the outcome of the identity test `this == &other`. -/
theorem operator_eq_iff_same_mappings [BEq V] (hash : K → Nat)
    (hlaw : ∀ v w : V, (v == w) = true ↔ v = w) (same : Bool)
    (A B : HashMap K V) (hA : WF hash A) (hB : WF hash B) (hsame : same = true → A = B) :
    operator_eq hash same A B = true ↔
      ∀ k, contains hash A k = contains hash B k ∧
        (contains hash A k = true → at_ hash A k = at_ hash B k) := by
  haveI : LawfulBEq V := ⟨fun h => (hlaw _ _).1 h, (hlaw _ _).2 rfl⟩
  exact operator_eq_same_mappings hash same hA hB hsame

/-- Witness of C8, amended: the same three mappings in a two-bucket table and
in a ten-bucket table, with `==` on `Nat`. -/
theorem operator_eq_iff_same_mappings_witness :
    operator_eq (fun n => n) false sampleChain sampleSpread = true ∧
    (operator_eq (fun n => n) false sampleChain sampleSpread = true ↔
      ∀ k, contains (fun n => n) sampleChain k = contains (fun n => n) sampleSpread k ∧
        (contains (fun n => n) sampleChain k = true →
          at_ (fun n => n) sampleChain k = at_ (fun n => n) sampleSpread k)) :=
  ⟨by decide,
   operator_eq_iff_same_mappings (fun n => n) (fun _ _ => beq_iff_eq) false sampleChain
     sampleSpread (by decide) (by decide) (fun h => absurd h (by decide))⟩

/-- Counterexample to C9 as stated: the copy of the well-formed table holding
`1 ↦ NaN`, and a table it was assigned to, have its size and capacity but do
not compare equal to it, because `NaN == NaN` is false. -/
theorem copy_not_equal_counterexample :
    WF (fun n => n) sampleNaN ∧
    size (copy sampleNaN) = size sampleNaN ∧
    get_capacity (copy sampleNaN) = get_capacity sampleNaN ∧
    operator_eq (fun n => n) false (copy sampleNaN) sampleNaN = false ∧
    operator_eq (fun n => n) false (operator_assign false new sampleNaN) sampleNaN = false := by
  decide

/-- C9, amended: for a well-formed source `T`, the copy constructed from `T`,
and any destination after copy assignment from `T` whatever it held before,
has the size of `T` and the capacity of `T`; and, provided `==` on values is
reflexive, it compares equal to `T` under `operator==`.  `same` is the outcome
of the identity test `this == &other`. -/
theorem copy_equals_source [BEq V] (hash : K → Nat) (T : HashMap K V) (h : WF hash T) :
    (size (copy T) = size T ∧ get_capacity (copy T) = get_capacity T ∧
      ((∀ v : V, (v == v) = true) → operator_eq hash false (copy T) T = true)) ∧
    ∀ (same : Bool) (dst : HashMap K V), (same = true → dst = T) →
      size (operator_assign same dst T) = size T ∧
      get_capacity (operator_assign same dst T) = get_capacity T ∧
      ((∀ v : V, (v == v) = true) →
        operator_eq hash same (operator_assign same dst T) T = true) := by
  obtain ⟨h1, h2, -⟩ := copy_spec hash h
  have hc : size (copy T) = size T ∧ get_capacity (copy T) = get_capacity T ∧
      ((∀ v : V, (v == v) = true) → operator_eq hash false (copy T) T = true) :=
    ⟨h1, h2, fun hrefl => copy_eq_source_of_refl hash h hrefl⟩
  refine ⟨hc, ?_⟩
  intro same dst hsame
  cases same with
  | true =>
    rw [hsame rfl]
    exact ⟨rfl, rfl, fun _ => rfl⟩
  | false =>
    rw [operator_assign_eq_copy]
    exact hc

/-- Witness of C9, amended: copies of the table `sampleChain`, one assigned
over a table that held fifteen other mappings, with `==` on `Nat`. -/
theorem copy_equals_source_witness :
    (size (copy sampleChain) = size sampleChain ∧
      get_capacity (copy sampleChain) = get_capacity sampleChain ∧
      operator_eq (fun n => n) false (copy sampleChain) sampleChain = true) ∧
    (size (operator_assign false sampleFull sampleChain) = size sampleChain ∧
      get_capacity (operator_assign false sampleFull sampleChain) = get_capacity sampleChain ∧
      operator_eq (fun n => n) false (operator_assign false sampleFull sampleChain)
        sampleChain = true) :=
  ⟨⟨(copy_equals_source (fun n => n) sampleChain (by decide)).1.1,
    (copy_equals_source (fun n => n) sampleChain (by decide)).1.2.1,
    (copy_equals_source (fun n => n) sampleChain (by decide)).1.2.2 (fun _ => beq_self_eq_true _)⟩,
   ⟨((copy_equals_source (fun n => n) sampleChain (by decide)).2 false sampleFull
      (fun h => absurd h (by decide))).1,
    ((copy_equals_source (fun n => n) sampleChain (by decide)).2 false sampleFull
      (fun h => absurd h (by decide))).2.1,
    ((copy_equals_source (fun n => n) sampleChain (by decide)).2 false sampleFull
      (fun h => absurd h (by decide))).2.2 (fun _ => beq_self_eq_true _)⟩⟩

/-- C10: for a table of capacity `c ≥ 1` (its bucket array holding `c` slots,
as the class keeps it), the state after `clear()` is exactly the state of a
freshly constructed table of capacity `c`: size 0, every bucket empty, cursor
unset, capacity `c`.  Hence `empty()` is true, `size()` is 0, `contains(k)` is
false for every key, and every later sequence of calls returns the same
results, and ends in the same state, as on a fresh table of capacity `c`. -/
theorem clear_is_fresh [BEq V] (hash : K → Nat) (m : HashMap K V) (c : Nat)
    (ha : Allocated m) (hcap : m.capacity = c) (hpos : 1 ≤ c) :
    clear m = newCap c ∧
    (c = 10 → clear m = new) ∧
    ((clear m).sz = 0 ∧ (∀ i, (clear m).bucket i = []) ∧ (clear m).curr = [] ∧
      (clear m).curr_idx = 0 ∧ (clear m).capacity = c) ∧
    empty (clear m) = true ∧
    size (clear m) = 0 ∧
    (∀ k, contains hash (clear m) k = false) ∧
    ∀ calls, run hash (clear m) calls = run hash (newCap c) calls := by
  have hclear : clear m = newCap c := by
    rw [← hcap]
    exact clear_eq_newCap ha (by omega)
  have hnew : (newCap c : HashMap K V) = initBuckets blank c := by
    unfold newCap
    rw [if_neg (by omega)]
  have hcon : ∀ k, contains hash (newCap c : HashMap K V) k = false := by
    intro k
    cases hk : contains hash (newCap c : HashMap K V) k with
    | false => rfl
    | true =>
      obtain ⟨v, hv⟩ := (contains_iff hash (newCap_wf hash c) k).1 hk
      rw [newCap_entries] at hv
      exact absurd hv (List.not_mem_nil _)
  rw [hclear]
  refine ⟨rfl, ?_, ?_, ?_, ?_, hcon, fun _ => rfl⟩
  · intro h10
    rw [hnew, h10]
    rfl
  · rw [hnew]
    refine ⟨rfl, ?_, rfl, rfl, rfl⟩
    intro i
    simp [bucket, initBuckets]
  · rw [hnew]
    rfl
  · rw [hnew]
    rfl

/-- Witness of C10: clearing the default table that holds fifteen mappings. -/
theorem clear_is_fresh_witness :
    clear sampleFull = newCap 10 ∧
    ((10 : Nat) = 10 → clear sampleFull = new) ∧
    ((clear sampleFull).sz = 0 ∧ (∀ i, (clear sampleFull).bucket i = []) ∧
      (clear sampleFull).curr = [] ∧ (clear sampleFull).curr_idx = 0 ∧
      (clear sampleFull).capacity = 10) ∧
    empty (clear sampleFull) = true ∧
    size (clear sampleFull) = 0 ∧
    (∀ k, contains (fun n => n) (clear sampleFull) k = false) ∧
    ∀ calls, run (fun n => n) (clear sampleFull) calls = run (fun n => n) (newCap 10) calls :=
  clear_is_fresh (fun n => n) sampleFull 10 (by decide) (by decide) (by decide)

end Claims

/-! ## The claims, continued -/

/-- C11: for a table of capacity `c ≥ 1` and size `s`, the capacity after
`insert` (of any key, absent or not) is `2c` when `2(s+1) > 3c` and `c`
otherwise.  Hence a default table keeps capacity 10 through its first 15
inserts of distinct keys and has capacity exactly 20 after the 16th. -/
theorem insert_capacity_rule [DecidableEq K] (hash : K → Nat) :
    (∀ (m : HashMap K V) (k : K) (v : V), 1 ≤ get_capacity m →
      get_capacity (insert hash m k v) =
        if 2 * (size m + 1) > 3 * get_capacity m then 2 * get_capacity m
        else get_capacity m) ∧
    (∀ kvs : List (K × V), (kvs.map Prod.fst).Nodup →
      (kvs.length ≤ 15 → get_capacity (insertAll hash new kvs) = 10) ∧
      (kvs.length = 16 → get_capacity (insertAll hash new kvs) = 20)) := by
  refine ⟨?_, ?_⟩
  · intro m k v hc
    show (insert hash m k v).capacity = _
    rw [insert_capacity, grow_capacity hash m hc]
    rfl
  · intro kvs hn
    exact ⟨insertAll_new_capacity hash kvs hn, insertAll_new_capacity_16 hash kvs hn⟩

/-- Witness of C11: the sixteenth insert into the default table holding the
keys 0..14, and the default table after the sixteen inserts of 0..15. -/
theorem insert_capacity_rule_witness :
    get_capacity (insert (fun n => n) sampleFull 15 15) =
      (if 2 * (size sampleFull + 1) > 3 * get_capacity sampleFull
        then 2 * get_capacity sampleFull else get_capacity sampleFull) ∧
    get_capacity (insertAll (fun n => n) (new : HashMap Nat Nat)
      ((List.range 16).map (fun i => (i, i)))) = 20 :=
  ⟨(insert_capacity_rule (fun n => n)).1 sampleFull 15 15 (by decide),
   ((insert_capacity_rule (fun n => n)).2 ((List.range 16).map (fun i => (i, i)))
     (by decide)).2 (by decide)⟩

/-- C12: well-formedness is an invariant.  A freshly constructed table is
well-formed, and `insert`, `erase`, `clear`, `rehash`, copy construction and
copy assignment applied to well-formed tables give well-formed tables: every
key in at most one entry of the whole table, every entry with key `K` in the
chain of bucket `hash(K) mod capacity`, and `sz` the number of entries. -/
theorem wf_invariant [DecidableEq K] (hash : K → Nat) :
    WF hash (new : HashMap K V) ∧
    (∀ c, WF hash (newCap c : HashMap K V)) ∧
    ∀ m : HashMap K V, WF hash m →
      (∀ k v, WF hash (insert hash m k v)) ∧
      (∀ k, WF hash (erase hash m k).2) ∧
      WF hash (clear m) ∧
      (∀ n, WF hash (rehash hash m n)) ∧
      WF hash (copy m) ∧
      ∀ (same : Bool) (dst : HashMap K V), (same = true → dst = m) →
        WF hash (operator_assign same dst m) :=
  ⟨initBuckets_wf hash 10, newCap_wf hash, fun _ h =>
    ⟨insert_wf hash h, erase_wf hash h, clear_wf hash h, rehash_wf hash h, copy_wf hash h,
     operator_assign_wf hash h⟩⟩

/-- Witness of C12: the operations applied to the table `sampleChain`. -/
theorem wf_invariant_witness :
    (∀ k v, WF (fun n => n) (insert (fun n => n) sampleChain k v)) ∧
    (∀ k, WF (fun n => n) (erase (fun n => n) sampleChain k).2) ∧
    WF (fun n => n) (clear sampleChain) ∧
    (∀ n, WF (fun n => n) (rehash (fun n => n) sampleChain n)) ∧
    WF (fun n => n) (copy sampleChain) ∧
    ∀ (same : Bool) (dst : HashMap Nat Nat), (same = true → dst = sampleChain) →
      WF (fun n => n) (operator_assign same dst sampleChain) :=
  (wf_invariant (fun n => n)).2.2 sampleChain (by decide)

/-- C13: equality is symmetric.  For two well-formed tables `A` and `B`,
whatever the order their mappings were inserted in, `A == B` and `B == A`
return the same result, provided `==` on values is symmetric.  `same` is the
outcome of the identity test, which is the same for both calls. -/
theorem operator_eq_symmetric [DecidableEq K] [BEq V] (hash : K → Nat)
    (hsymm : ∀ v w : V, (v == w) = (w == v)) (same : Bool) (A B : HashMap K V)
    (hA : WF hash A) (hB : WF hash B) :
    operator_eq hash same A B = operator_eq hash same B A :=
  operator_eq_comm hash hsymm same hA hB

/-- Witness of C13: the same three mappings inserted in two orders into
tables of capacity 2 and 10. -/
theorem operator_eq_symmetric_witness :
    operator_eq (fun n => n) false sampleChain sampleSpread =
      operator_eq (fun n => n) false sampleSpread sampleChain :=
  operator_eq_symmetric (fun n => n) (fun _ _ => BEq.comm) false
    sampleChain sampleSpread (by decide) (by decide)

/-- C14: every table reachable from the constructors, a requested capacity of
0 included, by any sequence of `insert`, `erase`, `clear`, copy construction
and copy assignment between such tables (and `begin`/`next`) has capacity at
least 1. -/
theorem capacity_at_least_one [DecidableEq K] (hash : K → Nat) (m : HashMap K V)
    (h : Reachable hash m) : 1 ≤ get_capacity m :=
  reachable_capacity_pos hash h

/-- Witness of C14: a table built by `HashMap(0)`, three inserts, an erase
and a copy. -/
theorem capacity_at_least_one_witness :
    1 ≤ get_capacity
      (copy (erase (fun n => n)
        (insert (fun n => n) (insert (fun n => n) (insert (fun n => n)
          (newCap 0 : HashMap Nat Nat) 1 100) 2 200) 3 300) 2).2) :=
  capacity_at_least_one (fun n => n) _
    (Reachable.byCopy (Reachable.byErase 2 (Reachable.byInsert 3 300
      (Reachable.byInsert 2 200 (Reachable.byInsert 1 100 (Reachable.byNewCap 0))))))

/-- Counterexample to C15 as stated: assigning an empty default-constructed
table (size 0, capacity 10) over a table holding three mappings leaves the
destination empty but at capacity 10, not 0. -/
theorem empty_source_keeps_capacity_counterexample :
    size (new : HashMap Nat Nat) = 0 ∧
    ¬ (size (operator_assign false sampleSpread (new : HashMap Nat Nat)) = 0 ∧
       get_capacity (operator_assign false sampleSpread (new : HashMap Nat Nat)) = 0) := by
  decide

/-- C15, amended: for a well-formed source of size 0 and any destination,
after `destination = source` the destination is empty (size 0) and has the
capacity of the source, which is 0 only when the source has capacity 0. -/
theorem assign_empty_source (hash : K → Nat) (same : Bool) (dst src : HashMap K V)
    (h : WF hash src) (hs : size src = 0) (hsame : same = true → dst = src) :
    size (operator_assign same dst src) = 0 ∧
    empty (operator_assign same dst src) = true ∧
    get_capacity (operator_assign same dst src) = get_capacity src ∧
    (get_capacity (operator_assign same dst src) = 0 ↔ get_capacity src = 0) := by
  have hsz : (operator_assign same dst src).sz = src.sz ∧
      (operator_assign same dst src).capacity = src.capacity := by
    cases same with
    | true =>
      rw [hsame rfl]
      exact ⟨rfl, rfl⟩
    | false =>
      rw [operator_assign_eq_copy]
      exact ⟨(copy_spec hash h).1, (copy_spec hash h).2.1⟩
  have h0 : (operator_assign same dst src).sz = 0 := hsz.1.trans hs
  refine ⟨h0, ?_, hsz.2, ?_⟩
  · simp [empty, h0]
  · show (operator_assign same dst src).capacity = 0 ↔ src.capacity = 0
    rw [hsz.2]

/-- Witness of C15, amended: the empty default table assigned over a table
holding three mappings. -/
theorem assign_empty_source_witness :
    size (operator_assign false sampleSpread (new : HashMap Nat Nat)) = 0 ∧
    empty (operator_assign false sampleSpread (new : HashMap Nat Nat)) = true ∧
    get_capacity (operator_assign false sampleSpread (new : HashMap Nat Nat)) =
      get_capacity (new : HashMap Nat Nat) ∧
    (get_capacity (operator_assign false sampleSpread (new : HashMap Nat Nat)) = 0 ↔
      get_capacity (new : HashMap Nat Nat) = 0) :=
  assign_empty_source (fun n => n) false sampleSpread new (by decide) (by decide)
    (fun h => absurd h (by decide))

/-- C16: for every requested capacity `n`, `HashMap(n)` has capacity
`max n 1`, size 0, `empty()` true, every bucket empty and the cursor unset;
the default constructor gives the same with capacity exactly 10. -/
theorem constructors_spec :
    (∀ n : Nat,
      get_capacity (newCap n : HashMap K V) = max n 1 ∧
      size (newCap n : HashMap K V) = 0 ∧
      empty (newCap n : HashMap K V) = true ∧
      (newCap n : HashMap K V).data = some (List.replicate (max n 1) []) ∧
      (∀ i, (newCap n : HashMap K V).bucket i = []) ∧
      (newCap n : HashMap K V).curr = [] ∧
      (newCap n : HashMap K V).curr_idx = 0) ∧
    (get_capacity (new : HashMap K V) = 10 ∧
      size (new : HashMap K V) = 0 ∧
      empty (new : HashMap K V) = true ∧
      (new : HashMap K V).data = some (List.replicate 10 []) ∧
      (∀ i, (new : HashMap K V).bucket i = []) ∧
      (new : HashMap K V).curr = [] ∧
      (new : HashMap K V).curr_idx = 0) := by
  have hb : ∀ (c i : Nat), (initBuckets (blank : HashMap K V) c).bucket i = [] := by
    intro c i
    simp [bucket, initBuckets]
  refine ⟨?_, rfl, rfl, rfl, rfl, hb 10, rfl, rfl⟩
  intro n
  by_cases hn : n = 0
  · have : (newCap n : HashMap K V) = initBuckets blank 1 := by
      unfold newCap
      rw [if_pos hn]
    rw [this, hn]
    exact ⟨rfl, rfl, rfl, rfl, hb 1, rfl, rfl⟩
  · have : (newCap n : HashMap K V) = initBuckets blank n := by
      unfold newCap
      rw [if_neg hn]
    have hmax : max n 1 = n := by omega
    rw [this, hmax]
    exact ⟨rfl, rfl, rfl, rfl, hb n, rfl, rfl⟩

/-- C17: on every table, `erase(k)` of a present key changes only the chain
of bucket `hash(k) mod capacity`: that chain loses exactly the first entry
whose key is `k` (the entries before it carry other keys), all other entries
keep their order, keys and values; every other bucket and the capacity are
unchanged.  The entry may be the head (`pre = []`), inside, or the tail
(`post = []`). -/
theorem erase_changes_one_chain [DecidableEq K] (hash : K → Nat) (m : HashMap K V) (k : K)
    (hk : contains hash m k = true) :
    ∃ v pre post,
      m.bucket (hash k % get_capacity m) = pre ++ (k, v) :: post ∧
      (∀ e ∈ pre, e.1 ≠ k) ∧
      (erase hash m k).1 = Except.ok v ∧
      (erase hash m k).2.bucket (hash k % get_capacity m) = pre ++ post ∧
      (erase hash m k).2.bucket (hash k % get_capacity m) =
        (m.bucket (hash k % get_capacity m)).eraseP (fun e => decide (e.1 = k)) ∧
      (∀ j, j ≠ hash k % get_capacity m → (erase hash m k).2.bucket j = m.bucket j) ∧
      get_capacity (erase hash m k).2 = get_capacity m := by
  obtain ⟨v, pre, post, h1, h2, h3, h4, h5, h6, -⟩ := erase_frame hash m k hk
  refine ⟨v, pre, post, h1, h2, h3, h4, ?_, h5, h6⟩
  show (erase hash m k).2.bucket (hash k % m.capacity) =
    (m.bucket (hash k % m.capacity)).eraseP (fun e => decide (e.1 = k))
  rw [h4, h1, List.eraseP_append_right _ (by
    intro e he
    simpa using h2 e he)]
  simp

/-- Witness of C17: erasing the interior entry of a three-entry chain. -/
theorem erase_changes_one_chain_witness :
    ∃ v pre post,
      sampleColliding.bucket (0 % get_capacity sampleColliding) = pre ++ (2, v) :: post ∧
      (∀ e ∈ pre, e.1 ≠ 2) ∧
      (erase (fun _ => 0) sampleColliding 2).1 = Except.ok v ∧
      (erase (fun _ => 0) sampleColliding 2).2.bucket (0 % get_capacity sampleColliding) =
        pre ++ post ∧
      (erase (fun _ => 0) sampleColliding 2).2.bucket (0 % get_capacity sampleColliding) =
        (sampleColliding.bucket (0 % get_capacity sampleColliding)).eraseP
          (fun e => decide (e.1 = 2)) ∧
      (∀ j, j ≠ 0 % get_capacity sampleColliding →
        (erase (fun _ => 0) sampleColliding 2).2.bucket j = sampleColliding.bucket j) ∧
      get_capacity (erase (fun _ => 0) sampleColliding 2).2 = get_capacity sampleColliding :=
  erase_changes_one_chain (fun _ => 0) sampleColliding 2 (by decide)

/-- Counterexample to C18 as stated: in the well-formed default table holding
the keys 0..14 (capacity 10), inserting the present key 0 again changes the
table: the load-factor check runs before the duplicate scan and doubles the
capacity to 20. -/
theorem insert_duplicate_noop_counterexample :
    WF (fun n => n) sampleFull ∧
    contains (fun n => n) sampleFull 0 = true ∧
    insert (fun n => n) sampleFull 0 99 ≠ sampleFull ∧
    get_capacity sampleFull = 10 ∧
    get_capacity (insert (fun n => n) sampleFull 0 99) = 20 := by
  decide

/-- C18, amended: on a well-formed table, `insert` of a key already present
leaves `size()` and the `contains`/`at` result of every key unchanged.  The
whole state (capacity, chains and their order, stored values) is unchanged
when `2 * (size + 1) ≤ 3 * capacity`; when `2 * (size + 1) > 3 * capacity` the
resize check, which runs before the duplicate scan, fires and the state is
that of `rehash(2 * capacity)`. -/
theorem insert_duplicate_state [DecidableEq K] (hash : K → Nat) (m : HashMap K V)
    (h : WF hash m) (k : K) (v : V) (hk : contains hash m k = true) :
    size (insert hash m k v) = size m ∧
    (∀ k2, contains hash (insert hash m k v) k2 = contains hash m k2 ∧
      at_ hash (insert hash m k v) k2 = at_ hash m k2) ∧
    (2 * (size m + 1) ≤ 3 * get_capacity m → insert hash m k v = m) ∧
    (2 * (size m + 1) > 3 * get_capacity m →
      insert hash m k v = rehash hash m (get_capacity m * 2)) := by
  have hc : m.capacity ≠ 0 := by
    intro hc
    simp [contains, hc] at hk
  rw [insert_present hash h k v hk]
  refine ⟨grow_sz hash m, fun k2 => grow_lookup hash h k2, ?_, ?_⟩
  · intro hle
    have hle2 : ¬ 2 * (m.sz + 1) > 3 * m.capacity := Nat.not_lt.2 hle
    unfold grow
    rw [if_neg hc, if_neg hle2]
  · intro hgt
    have hgt2 : 2 * (m.sz + 1) > 3 * m.capacity := hgt
    unfold grow
    rw [if_neg hc, if_pos hgt2]
    rfl

/-- Witness of C18, amended: a second insert of key 2 into the table
`sampleChain` of capacity 2 and size 3, where the resize check fires. -/
theorem insert_duplicate_state_witness :
    size (insert (fun n => n) sampleChain 2 999) = size sampleChain ∧
    (∀ k2, contains (fun n => n) (insert (fun n => n) sampleChain 2 999) k2 =
        contains (fun n => n) sampleChain k2 ∧
      at_ (fun n => n) (insert (fun n => n) sampleChain 2 999) k2 =
        at_ (fun n => n) sampleChain k2) ∧
    (2 * (size sampleChain + 1) ≤ 3 * get_capacity sampleChain →
      insert (fun n => n) sampleChain 2 999 = sampleChain) ∧
    (2 * (size sampleChain + 1) > 3 * get_capacity sampleChain →
      insert (fun n => n) sampleChain 2 999 =
        rehash (fun n => n) sampleChain (get_capacity sampleChain * 2)) :=
  insert_duplicate_state (fun n => n) sampleChain (by decide) 2 999 (by decide)

/-- C19: on every table and for every new capacity `n` (0 treated as 1),
`rehash(n)` leaves `sz` unchanged and gives capacity `n`; the chain of every
bucket `j` is exactly the list of the old entries whose `hash(key) mod n` is
`j`, in the order of the scan of the old table (bucket index, then chain
order); the entries of the new table are a rearrangement of the old ones:
none lost, duplicated or altered. -/
theorem rehash_spec (hash : K → Nat) (m : HashMap K V) (n : Nat) :
    size (rehash hash m n) = size m ∧
    get_capacity (rehash hash m n) = (if n = 0 then 1 else n) ∧
    (∀ j, (rehash hash m n).bucket j =
      (((List.range (get_capacity m)).map m.bucket).flatten).filter
        (fun e => decide (hash e.1 % (if n = 0 then 1 else n) = j))) ∧
    (entries (rehash hash m n)).Perm (entries m) :=
  ⟨rfl, rfl, fun j => rehash_bucket hash m n j, rehash_entries_perm hash m n⟩

/-- C20: on every table, `begin()` followed by `next()` until it returns
false delivers the concatenation of the bucket chains in increasing bucket
index, each chain from head to tail, and false from then on; a `begin()`
called again after any number of `next()` calls puts the table in the state of
the first `begin()`, so the same full sequence is delivered again. -/
theorem traversal_order (m : HashMap K V) :
    (∀ n, (nextTimes (begin m)
        ((((List.range (get_capacity m)).map m.bucket).flatten).length + n)).1 =
      (((List.range (get_capacity m)).map m.bucket).flatten).map some ++
        List.replicate n none) ∧
    (∀ j, begin (nextTimes (begin m) j).2 = begin m) ∧
    (∀ j n, (nextTimes (begin (nextTimes (begin m) j).2)
        ((((List.range (get_capacity m)).map m.bucket).flatten).length + n)).1 =
      (((List.range (get_capacity m)).map m.bucket).flatten).map some ++
        List.replicate n none) := by
  refine ⟨fun n => traversal_eq_entries m n, fun j => begin_restart m j, ?_⟩
  intro j n
  rw [begin_restart m j]
  exact traversal_eq_entries m n

/-- C21: on a well-formed table, after `insert(k, v)` of an absent key the
chain of bucket `hash(k) mod capacity` (the capacity after the resize step) is
the new entry `(k, v)` followed by that bucket's chain as the resize step left
it, and every other bucket is as the resize step left it.  The resize step
`grow` is `rehash(1)` at capacity 0, `rehash(2 * capacity)` when
`2 * (size + 1) > 3 * capacity`, and leaves the table as it was otherwise.
Exactly one entry is created: the entries after the call are those after the
resize step plus `(k, v)`, and `sz` grows by 1. -/
theorem insert_head_placement [DecidableEq K] (hash : K → Nat) (m : HashMap K V)
    (h : WF hash m) (k : K) (v : V) (hk : contains hash m k = false) :
    (insert hash m k v).bucket (hash k % get_capacity (insert hash m k v)) =
      (k, v) :: (grow hash m).bucket (hash k % get_capacity (insert hash m k v)) ∧
    (∀ j, j ≠ hash k % get_capacity (insert hash m k v) →
      (insert hash m k v).bucket j = (grow hash m).bucket j) ∧
    get_capacity (insert hash m k v) = get_capacity (grow hash m) ∧
    (get_capacity m = 0 → grow hash m = rehash hash m 1) ∧
    (get_capacity m ≠ 0 → 2 * (size m + 1) > 3 * get_capacity m →
      grow hash m = rehash hash m (get_capacity m * 2)) ∧
    (get_capacity m ≠ 0 → 2 * (size m + 1) ≤ 3 * get_capacity m → grow hash m = m) ∧
    size (insert hash m k v) = size m + 1 ∧
    (entries (insert hash m k v)).Perm ((k, v) :: entries (grow hash m)) := by
  have hcap : get_capacity (insert hash m k v) = (grow hash m).capacity :=
    insert_capacity hash m k v
  obtain ⟨h1, h2⟩ := insert_head hash h k v hk
  obtain ⟨-, hp, hs⟩ := insert_absent hash h k v hk
  rw [hcap]
  exact ⟨h1, h2, rfl, (grow_cases hash m).1, (grow_cases hash m).2.1, (grow_cases hash m).2.2,
    hs, hp.trans (List.Perm.cons _ (grow_entries_perm hash m).symm)⟩

/-- Witness of C21: the sixteenth insert into a default table, placed at the
head of bucket 15 of the rehashed table. -/
theorem insert_head_placement_witness :
    get_capacity (insert (fun n => n) sampleFull 15 15) = 20 ∧
    (insert (fun n => n) sampleFull 15 15).bucket
        (15 % get_capacity (insert (fun n => n) sampleFull 15 15)) =
      (15, 15) :: (grow (fun n => n) sampleFull).bucket
        (15 % get_capacity (insert (fun n => n) sampleFull 15 15)) ∧
    (∀ j, j ≠ 15 % get_capacity (insert (fun n => n) sampleFull 15 15) →
      (insert (fun n => n) sampleFull 15 15).bucket j =
        (grow (fun n => n) sampleFull).bucket j) :=
  ⟨by decide,
   (insert_head_placement (fun n => n) sampleFull (by decide) 15 15 (by decide)).1,
   (insert_head_placement (fun n => n) sampleFull (by decide) 15 15 (by decide)).2.1⟩

/-- C22: on every table of capacity 0 and for every key and every hash
function, no call computes `hash(k) mod 0`, which `bucketIndex` would
(`bucketIndexChecked` is `none`): with the machine `%`, `contains` returns
false and `at` and `erase` throw `out_of_range` (`erase` leaving the table as
it was) rather than an undefined result; `begin` leaves the cursor at no
entry and `next` then returns false; and `insert` first grows the capacity to
1, then stores the mapping, again without a modulo by zero. -/
theorem zero_capacity_safe [DecidableEq K] (hash : K → Nat) (m : HashMap K V) (k : K)
    (hc : get_capacity m = 0) :
    bucketIndexChecked hash m k = none ∧
    containsChecked hash m k = some false ∧
    atChecked hash m k = some (Except.error Exn.out_of_range) ∧
    eraseChecked hash m k = some (Except.error Exn.out_of_range, m) ∧
    contains hash m k = false ∧
    at_ hash m k = Except.error Exn.out_of_range ∧
    erase hash m k = (Except.error Exn.out_of_range, m) ∧
    (begin m).curr = [] ∧
    (next (begin m)).1 = none ∧
    ∀ v,
      growChecked hash m = some (grow hash m) ∧
      get_capacity (grow hash m) = 1 ∧
      insertChecked hash m k v = some (insert hash m k v) ∧
      get_capacity (insert hash m k v) = 1 ∧
      (insert hash m k v).data = some [[(k, v)]] ∧
      size (insert hash m k v) = size m + 1 ∧
      contains hash (insert hash m k v) k = true ∧
      at_ hash (insert hash m k v) k = Except.ok v ∧
      containsChecked hash (insert hash m k v) k = some true ∧
      atChecked hash (insert hash m k v) k = some (Except.ok v) := by
  have hc2 : m.capacity = 0 := hc
  have hb := begin_zero m hc
  have h1 := contains_zero hash m hc k
  have h2 := at_zero hash m hc k
  have h3 := erase_zero hash m hc k
  refine ⟨?_, ?_, ?_, ?_, h1, h2, h3, ?_, ?_, ?_⟩
  · unfold bucketIndexChecked modChecked
    rw [if_pos hc2]
  · rw [containsChecked_eq, h1]
  · rw [atChecked_eq, h2]
  · rw [eraseChecked_eq, h3]
  · rw [hb.1]
  · rw [hb.2]
  · intro v
    obtain ⟨hg, hi⟩ := insert_zero hash m hc k v
    have hcon : contains hash (insert hash m k v) k = true := by
      rw [hi]
      simp [contains, bucket, bucketIndex, chainHas, Nat.mod_one]
    have hat : at_ hash (insert hash m k v) k = Except.ok v := by
      rw [hi]
      simp [at_, bucket, bucketIndex, chainAt, Nat.mod_one]
    refine ⟨growChecked_eq hash m, ?_, insertChecked_eq hash m k v, ?_, ?_, ?_, hcon, hat, ?_, ?_⟩
    · rw [hg]
      rfl
    · rw [hi]
      rfl
    · rw [hi]
    · rw [hi]
      rfl
    · rw [containsChecked_eq, hcon]
    · rw [atChecked_eq, hat]

/-- Witness of C22: the table without bucket storage that the copy constructor
makes from a table of capacity 0. -/
theorem zero_capacity_safe_witness :
    bucketIndexChecked (fun n => n) (blank : HashMap Nat Nat) 7 = none ∧
    containsChecked (fun n => n) (blank : HashMap Nat Nat) 7 = some false ∧
    atChecked (fun n => n) (blank : HashMap Nat Nat) 7 =
      some (Except.error Exn.out_of_range) ∧
    eraseChecked (fun n => n) (blank : HashMap Nat Nat) 7 =
      some (Except.error Exn.out_of_range, blank) ∧
    contains (fun n => n) (blank : HashMap Nat Nat) 7 = false ∧
    at_ (fun n => n) (blank : HashMap Nat Nat) 7 = Except.error Exn.out_of_range ∧
    erase (fun n => n) (blank : HashMap Nat Nat) 7 = (Except.error Exn.out_of_range, blank) ∧
    (begin (blank : HashMap Nat Nat)).curr = [] ∧
    (next (begin (blank : HashMap Nat Nat))).1 = none ∧
    ∀ v,
      growChecked (fun n => n) (blank : HashMap Nat Nat) =
        some (grow (fun n => n) (blank : HashMap Nat Nat)) ∧
      get_capacity (grow (fun n => n) (blank : HashMap Nat Nat)) = 1 ∧
      insertChecked (fun n => n) (blank : HashMap Nat Nat) 7 v =
        some (insert (fun n => n) (blank : HashMap Nat Nat) 7 v) ∧
      get_capacity (insert (fun n => n) (blank : HashMap Nat Nat) 7 v) = 1 ∧
      (insert (fun n => n) (blank : HashMap Nat Nat) 7 v).data = some [[(7, v)]] ∧
      size (insert (fun n => n) (blank : HashMap Nat Nat) 7 v) =
        size (blank : HashMap Nat Nat) + 1 ∧
      contains (fun n => n) (insert (fun n => n) (blank : HashMap Nat Nat) 7 v) 7 = true ∧
      at_ (fun n => n) (insert (fun n => n) (blank : HashMap Nat Nat) 7 v) 7 = Except.ok v ∧
      containsChecked (fun n => n) (insert (fun n => n) (blank : HashMap Nat Nat) 7 v) 7 =
        some true ∧
      atChecked (fun n => n) (insert (fun n => n) (blank : HashMap Nat Nat) 7 v) 7 =
        some (Except.ok v) :=
  zero_capacity_safe (fun n => n) blank 7 (by decide)

/-- Counterexample to C23 as stated: in the table built by `HashMap(1)` and
the inserts of the keys 1, 2, 3 the second insert doubles the capacity to 2,
so the chain that `erase(2)` works on holds the single entry `(2, 200)`, and
no bucket holds all three entries. -/
theorem capacity_one_scenario_counterexample :
    get_capacity sampleChain = 2 ∧
    sampleChain.bucket (bucketIndex (fun n => n) sampleChain 2) = [(2, 200)] ∧
    ¬ ∃ i, (1, 100) ∈ sampleChain.bucket i ∧ (2, 200) ∈ sampleChain.bucket i ∧
      (3, 300) ∈ sampleChain.bucket i := by
  refine ⟨by decide, by decide, ?_⟩
  rintro ⟨i, h1, h2, -⟩
  match i, h1, h2 with
  | 0, h1, _ => exact absurd h1 (by decide)
  | 1, _, h2 => exact absurd h2 (by decide)
  | n + 2, h1, _ => exact List.not_mem_nil _ h1

/-- C23, amended: in the table built by `HashMap(1)` and the inserts of the
int keys 1, 2, 3 (`hash(i) = i`) with values 100, 200, 300, the second insert
has doubled the capacity to 2, key 2 is alone in the chain of bucket 0 and
keys 3 and 1 share the chain of bucket 1; `erase(2)` returns 200, `size()` is
then 2 and keys 1 and 3 are still retrievable with values 100 and 300. -/
theorem capacity_one_scenario :
    sampleChain =
      insert (fun n => n) (insert (fun n => n) (insert (fun n => n) (newCap 1) 1 100) 2 200)
        3 300 ∧
    get_capacity (newCap 1 : HashMap Nat Nat) = 1 ∧
    get_capacity (insert (fun n => n) (newCap 1 : HashMap Nat Nat) 1 100) = 1 ∧
    get_capacity
      (insert (fun n => n) (insert (fun n => n) (newCap 1 : HashMap Nat Nat) 1 100) 2 200) = 2 ∧
    get_capacity sampleChain = 2 ∧
    sampleChain.bucket 0 = [(2, 200)] ∧
    sampleChain.bucket 1 = [(3, 300), (1, 100)] ∧
    (erase (fun n => n) sampleChain 2).1 = Except.ok 200 ∧
    size (erase (fun n => n) sampleChain 2).2 = 2 ∧
    contains (fun n => n) (erase (fun n => n) sampleChain 2).2 1 = true ∧
    contains (fun n => n) (erase (fun n => n) sampleChain 2).2 3 = true ∧
    at_ (fun n => n) (erase (fun n => n) sampleChain 2).2 1 = Except.ok 100 ∧
    at_ (fun n => n) (erase (fun n => n) sampleChain 2).2 3 = Except.ok 300 :=
  ⟨rfl, by decide, by decide, by decide, by decide, by decide, by decide, rfl, by decide,
   by decide, by decide, rfl, rfl⟩

/-- C24: every table reachable from a constructor by any sequence of `insert`,
`erase`, `clear` and copies (and `begin`/`next`) has `2 * size ≤ 3 * capacity`;
and an `insert` into such a table leaves the capacity as it was or doubles it
once, after which the bound holds again. -/
theorem load_factor_bound [DecidableEq K] (hash : K → Nat) (m : HashMap K V)
    (h : Reachable hash m) :
    2 * size m ≤ 3 * get_capacity m ∧
    ∀ k v,
      (get_capacity (insert hash m k v) = get_capacity m ∨
        get_capacity (insert hash m k v) = 2 * get_capacity m) ∧
      2 * size (insert hash m k v) ≤ 3 * get_capacity (insert hash m k v) :=
  ⟨reachable_load hash h, fun k v =>
    insert_load hash (reachable_capacity_pos hash h) (reachable_load hash h) k v⟩

/-- Witness of C24: the default table after fifteen inserts, at load factor
exactly 1.5, and the inserts into it. -/
theorem load_factor_bound_witness :
    2 * size sampleFull ≤ 3 * get_capacity sampleFull ∧
    ∀ k v,
      (get_capacity (insert (fun n => n) sampleFull k v) = get_capacity sampleFull ∨
        get_capacity (insert (fun n => n) sampleFull k v) = 2 * get_capacity sampleFull) ∧
      2 * size (insert (fun n => n) sampleFull k v) ≤
        3 * get_capacity (insert (fun n => n) sampleFull k v) :=
  load_factor_bound (fun n => n) sampleFull
    (reachable_insertAll (fun n => n) Reachable.byNew _)


end HashMap
